import Mathlib

/-! redkey: keypad matrix scanner and typing-test session

A shallow embedding of `main.go`: the matrix scan with its per-cell edge
detector (`scanKeys`), the start-key polling loop (`waitForSW12Key`) and the
parts of `main` that sequence a counting window.

Conventions.
* `machine.Pin` is a pin number.  The output latches of the board and the
  chronological list of pin operations are carried explicitly in `Board`.
* `time.Time` is an integer number of nanoseconds; `time.Now()` is an input.
* What `rowPins[row].Get()` returns is an input: `reading row col` is the
  level seen on row `row` while the sweep is at column `col`.
* A slice index out of range is a Go panic; it is the `none` result.
* Go `int` counters are integers.  One pass adds at most one per cell, and a
  pass sleeps for a millisecond per column, so a ten second window stays far
  below the range of `int`.
* A `float64` is the rational number it denotes; conversions and operations
  round to the nearest binary64 value, ties to even (`binary64`).
-/

namespace Redkey

/-! ## Constants and data -/

/-- Pin number, as in `machine.Pin`. -/
abbrev Pin := Nat

/-- Instant or duration in nanoseconds. -/
abbrev Time := Int

def millisecond : Time := 1000000

def second : Time := 1000 * millisecond

def testDuration : Time := 10 * second

def ROWS : Nat := 3

def COLS : Nat := 4

/-- Largest `time.Duration`. -/
def maxDuration : Time := 2 ^ 63 - 1

/-- Smallest `time.Duration`. -/
def minDuration : Time := -(2 ^ 63)

/-- Duration `t - u` as `Time.Sub` gives it: saturated to the range of `time.Duration`. -/
def Time.sub (t u : Time) : Time :=
  if t - u > maxDuration then maxDuration
  else if t - u < minDuration then minDuration
  else t - u

/-- Result of `startTime.Add(d)`. -/
def Time.add (t d : Time) : Time := t + d

/-- Result of `t.Before(u)`. -/
def Time.before (t u : Time) : Bool := decide (t < u)

structure KeyState where
  isPressed : Bool
  lastPress : Time
deriving DecidableEq, Repr

/-- The slice of slices `[][]KeyState`. -/
abbrev KeyStates := List (List KeyState)

/-- One operation on the pins or the delay timer, in program order. -/
inductive PinEvent where
  | high (pin : Pin)
  | low (pin : Pin)
  | sleep (d : Time)
  | get (pin : Pin) (value : Bool)
deriving DecidableEq, Repr

/-- Output latch of every pin and the operations performed so far (oldest first). -/
structure Board where
  level : Pin → Bool
  log : List PinEvent

def Board.high (b : Board) (pin : Pin) : Board :=
  { level := fun q => if q = pin then true else b.level q
    log := b.log ++ [PinEvent.high pin] }

def Board.low (b : Board) (pin : Pin) : Board :=
  { level := fun q => if q = pin then false else b.level q
    log := b.log ++ [PinEvent.low pin] }

def Board.sleep (b : Board) (d : Time) : Board :=
  { b with log := b.log ++ [PinEvent.sleep d] }

def Board.get (b : Board) (pin : Pin) (value : Bool) : Board :=
  { b with log := b.log ++ [PinEvent.get pin value] }

/-- Levels returned by the row reads of one pass, by row and column index. -/
abbrev Frame := Nat → Nat → Bool

/-! ## Access to `keyStates` -/

/-- Read `keyStates[row][col]`; `none` when an index is out of range. -/
def getCell (ks : KeyStates) (row col : Nat) : Option KeyState :=
  match ks[row]? with
  | none => none
  | some r => r[col]?

/-- Assign `keyStates[row][col] = g keyStates[row][col]`; `none` when an index is out of range. -/
def modifyCell (ks : KeyStates) (row col : Nat) (g : KeyState → KeyState) : Option KeyStates :=
  match ks[row]? with
  | none => none
  | some r =>
    match r[col]? with
    | none => none
    | some c => some (ks.set row (r.set col (g c)))

/-! ## scanKeys -/

/-- Locals of `scanKeys` together with the memory it writes. -/
structure ScanSt where
  keyStates : KeyStates
  keyCount : Int
  board : Board

/-- The inner `range colPins` loop: the column `col` is driven High, every other one Low. -/
def driveColumns (colPins : List Pin) (col : Nat) (b : Board) : Board :=
  colPins.enum.foldl (fun b ip => if ip.1 = col then b.high ip.2 else b.low ip.2) b

/-- Body of the row loop for one `(row, col)`. -/
def scanCell (rowPins : List Pin) (now : Time) (reading : Frame) (col : Nat)
    (st : ScanSt) (row : Nat) : Option ScanSt :=
  match rowPins[row]? with
  | none => none
  | some pin =>
    let currentState := reading row col
    let board := st.board.get pin currentState
    if currentState then
      match getCell st.keyStates row col with
      | none => none
      | some cell =>
        if !cell.isPressed then
          match modifyCell st.keyStates row col (fun c => { c with isPressed := true }) with
          | none => none
          | some ks1 =>
            match modifyCell ks1 row col (fun c => { c with lastPress := now }) with
            | none => none
            | some ks2 => some { keyStates := ks2, keyCount := st.keyCount + 1, board := board }
        else some { st with board := board }
    else
      match getCell st.keyStates row col with
      | none => none
      | some cell =>
        if cell.isPressed then
          match modifyCell st.keyStates row col (fun c => { c with isPressed := false }) with
          | none => none
          | some ks1 =>
            match getCell ks1 row col with
            | none => none
            | some cell1 =>
              if Time.sub now cell1.lastPress > 50 * millisecond then
                some { st with keyStates := ks1, board := board }
              else
                some { st with keyStates := ks1, board := board }
        else some { st with board := board }

/-- Body of the column loop: drive, settle, then sweep the rows in ascending order. -/
def scanColumn (colPins rowPins : List Pin) (now : Time) (reading : Frame)
    (st : ScanSt) (col : Nat) : Option ScanSt :=
  let board := (driveColumns colPins col st.board).sleep (1 * millisecond)
  (List.range rowPins.length).foldlM (scanCell rowPins now reading col) { st with board := board }

/-- One call `scanKeys(colPins, rowPins, &keyStates)` with `time.Now() = now`:
returned count, the key states and the board it leaves. -/
def scanKeys (colPins rowPins : List Pin) (keyStates : KeyStates) (now : Time)
    (reading : Frame) (board : Board) : Option (Int × KeyStates × Board) :=
  match (List.range colPins.length).foldlM (scanColumn colPins rowPins now reading)
      { keyStates := keyStates, keyCount := 0, board := board } with
  | none => none
  | some st => some (st.keyCount, st.keyStates, st.board)

/-- Successive calls of `scanKeys`, one per element of `passes` (the clock value and the
readings of that call); the list of the counts returned, in call order. -/
def scanPasses (colPins rowPins : List Pin) :
    List (Time × Frame) → KeyStates → Board → Option (List Int × KeyStates × Board)
  | [], ks, b => some ([], ks, b)
  | (now, reading) :: rest, ks, b =>
    match scanKeys colPins rowPins ks now reading b with
    | none => none
    | some (n, ks1, b1) =>
      match scanPasses colPins rowPins rest ks1 b1 with
      | none => none
      | some (ns, ks2, b2) => some (n :: ns, ks2, b2)

/-! ## waitForSW12Key -/

/-- How a loop that is run for a bounded number of iterations stands: it has left the loop,
it has panicked, or it is still looping. -/
inductive Run (α : Type) where
  | done (a : α)
  | panicked
  | looping

/-- Locals of `waitForSW12Key`, the board, and the number of completed passes of its loop. -/
structure PollSt where
  wasPressed : Bool
  board : Board
  poll : Nat

/-- One pass of the body of the polling loop, `value` being what `rowPins[2].Get()` returns.
The flag of the result is `true` when the pass ends in `break`. -/
def pollOnce (colPins rowPins : List Pin) (value : Bool) (st : PollSt) : Option (Bool × PollSt) :=
  match colPins[3]? with
  | none => none
  | some c3 =>
    let b1 := (st.board.high c3).sleep (1 * millisecond)
    match rowPins[2]? with
    | none => none
    | some r2 =>
      let b2 := b1.get r2 value
      if value then
        let wasPressed := if !st.wasPressed then true else st.wasPressed
        some (false, { wasPressed := wasPressed
                       board := (b2.low c3).sleep (10 * millisecond)
                       poll := st.poll + 1 })
      else if st.wasPressed then
        some (true, { st with board := b2 })
      else
        some (false, { wasPressed := st.wasPressed
                       board := (b2.low c3).sleep (10 * millisecond)
                       poll := st.poll + 1 })

/-- The polling loop, run for at most `fuel` passes; `input k` is the level read in pass `k`. -/
def pollLoop (colPins rowPins : List Pin) (input : Nat → Bool) : Nat → PollSt → Run PollSt
  | 0, _ => Run.looping
  | fuel + 1, st =>
    match pollOnce colPins rowPins (input st.poll) st with
    | none => Run.panicked
    | some (true, st1) => Run.done st1
    | some (false, st1) => pollLoop colPins rowPins input fuel st1

/-- The call `waitForSW12Key(colPins, rowPins)`: on return, the index of the pass that left the
loop and the board after the final delay. -/
def waitForSW12Key (colPins rowPins : List Pin) (input : Nat → Bool) (fuel : Nat)
    (board : Board) : Run (Nat × Board) :=
  match pollLoop colPins rowPins input fuel { wasPressed := false, board := board, poll := 0 } with
  | Run.done st => Run.done (st.poll, st.board.sleep (100 * millisecond))
  | Run.panicked => Run.panicked
  | Run.looping => Run.looping

/-! ## main -/

/-- The slice `colPins` of `main`: GPIO5 to GPIO8. -/
def main.colPins : List Pin := [5, 6, 7, 8]

/-- The slice `rowPins` of `main`: GPIO9 to GPIO11. -/
def main.rowPins : List Pin := [9, 10, 11]

/-- Pin initialisation: every column is set Low (pin modes are not modelled). -/
def main.initPins (b : Board) : Board :=
  main.colPins.foldl (fun b c => b.low c) b

/-- The slices allocated for `keyStates`: `ROWS` rows of `COLS` zero values. -/
def main.initKeyStates : KeyStates :=
  List.replicate ROWS (List.replicate COLS { isPressed := false, lastPress := 0 })

/-- The reset loop: `keyStates[i][j].isPressed = false` for every `i` and `j`. -/
def main.resetKeyStates (ks : KeyStates) : KeyStates :=
  ks.map (fun r => r.map (fun c => { c with isPressed := false }))

/-- Inputs of one round of the service loop. -/
structure Env where
  /-- Level read by pass `k` of the polling loop. -/
  startKey : Nat → Bool
  /-- Value of the `k`-th `time.Now()` of the round. -/
  clock : Nat → Time
  /-- Readings of the `k`-th `scanKeys` call of the round. -/
  frames : Nat → Frame

/-- What a round of the service loop leaves behind. -/
structure MainSt where
  keyCount : Int
  keyStates : KeyStates
  board : Board

/-- Variables of `main` during the counting window, with the number of `time.Now()` and of
`scanKeys` calls made so far in the round. -/
structure RunSt where
  keyCount : Int
  startTime : Time
  endTime : Time
  keyStates : KeyStates
  board : Board
  ticks : Nat
  scans : Nat

/-- From the return of `waitForSW12Key` to the first test of the loop condition. -/
def main.enterRunning (env : Env) (prev : MainSt) (board : Board) : RunSt :=
  let keyCount : Int := 0
  let startTime := env.clock 0
  let endTime := Time.add startTime testDuration
  { keyCount := keyCount
    startTime := startTime
    endTime := endTime
    keyStates := main.resetKeyStates prev.keyStates
    board := board
    ticks := 1
    scans := 0 }

/-- Body of the counting loop: `keyCount += scanKeys(...)`, then the display refresh, which
reads the clock once more for the remaining time. -/
def main.runBody (env : Env) (st : RunSt) : Option RunSt :=
  match scanKeys main.colPins main.rowPins st.keyStates (env.clock st.ticks)
      (env.frames st.scans) st.board with
  | none => none
  | some (n, ks, b) =>
    some { st with keyCount := st.keyCount + n
                   keyStates := ks
                   board := b
                   ticks := st.ticks + 2
                   scans := st.scans + 1 }

/-- The loop `for time.Now().Before(endTime)`, run for at most `fuel` tests of its condition. -/
def main.runLoop (env : Env) : Nat → RunSt → Run RunSt
  | 0, _ => Run.looping
  | fuel + 1, st =>
    if Time.before (env.clock st.ticks) st.endTime then
      match main.runBody env { st with ticks := st.ticks + 1 } with
      | none => Run.panicked
      | some st1 => main.runLoop env fuel st1
    else Run.done { st with ticks := st.ticks + 1 }

/-- One round of the service loop, from the invitation screen to the end of the result delay. -/
def main.round (env : Env) (fuel : Nat) (prev : MainSt) : Run MainSt :=
  match waitForSW12Key main.colPins main.rowPins env.startKey fuel prev.board with
  | Run.panicked => Run.panicked
  | Run.looping => Run.looping
  | Run.done (_, b) =>
    match main.runLoop env fuel (main.enterRunning env prev b) with
    | Run.panicked => Run.panicked
    | Run.looping => Run.looping
    | Run.done st =>
      Run.done { keyCount := st.keyCount
                 keyStates := st.keyStates
                 board := st.board.sleep (3 * second) }

/-! ## Closed forms used in the proofs -/

/-- What the edge detector makes of one cell: the four cases of the row loop body. -/
def cellNext (now : Time) (active : Bool) (c : KeyState) : KeyState :=
  if active then
    if c.isPressed then c else { isPressed := true, lastPress := now }
  else
    if c.isPressed then { c with isPressed := false } else c

/-- Contribution of one cell to the returned count: one on a rising edge. -/
def cellEdge (active : Bool) (c : KeyState) : Int :=
  if active && !c.isPressed then 1 else 0

/-- Rising edge at `(row, col)`: zero when the cell does not exist. -/
def edgeAt (reading : Frame) (ks : KeyStates) (row col : Nat) : Int :=
  match getCell ks row col with
  | some c => cellEdge (reading row col) c
  | none => 0

/-- Number of rising edges among the cells with `row < R` and `col < C`. -/
def edgeCount (R C : Nat) (reading : Frame) (ks : KeyStates) : Int :=
  ∑ col in Finset.range C, ∑ row in Finset.range R, edgeAt reading ks row col

/-- Apply `g row col` to every cell selected by `sel`. -/
def updCells (sel : Nat → Nat → Bool) (g : Nat → Nat → KeyState → KeyState)
    (ks : KeyStates) : KeyStates :=
  ks.mapIdx (fun row r => r.mapIdx (fun col c => if sel row col then g row col c else c))

/-- Key states after a pass over `R` rows and `C` columns. -/
def applyFrame (R C : Nat) (now : Time) (reading : Frame) (ks : KeyStates) : KeyStates :=
  updCells (fun row col => decide (row < R) && decide (col < C))
    (fun row col => cellNext now (reading row col)) ks

/-- Board during the row loop of column `col`, after `n` rows. -/
def rowsBoard (rowPins : List Pin) (reading : Frame) (col : Nat) (n : Nat) (b : Board) : Board :=
  (List.range n).foldl (fun b row => b.get (rowPins.getD row 0) (reading row col)) b

/-- Board after the column loop body for `col`. -/
def columnBoard (colPins rowPins : List Pin) (reading : Frame) (col : Nat) (b : Board) : Board :=
  rowsBoard rowPins reading col rowPins.length ((driveColumns colPins col b).sleep (1 * millisecond))

/-- Board after the first `m` columns of a pass. -/
def scanBoard (colPins rowPins : List Pin) (reading : Frame) (m : Nat) (b : Board) : Board :=
  (List.range m).foldl (fun b col => columnBoard colPins rowPins reading col b) b

/-- Every cell that a pass over `R` rows and `C` columns touches exists. -/
def InRange (R C : Nat) (ks : KeyStates) : Prop :=
  ∀ row, row < R → ∀ col, col < C → (getCell ks row col).isSome = true

/-- Shape condition: at least `R` rows, each of at least `C` cells. -/
def Shaped (R C : Nat) (ks : KeyStates) : Prop :=
  R ≤ ks.length ∧ ∀ r ∈ ks, C ≤ r.length

/-- Pressed flag of the cell `(row, col)`; `false` when the cell does not exist. -/
def pressedAt (ks : KeyStates) (row col : Nat) : Bool :=
  match getCell ks row col with
  | some c => c.isPressed
  | none => false

/-- Number of cells with `row < R`, `col < C` that are active in `f` and not in `prev`. -/
def risingCells (R C : Nat) (prev f : Frame) : Int :=
  ∑ col in Finset.range C, ∑ row in Finset.range R, if f row col && !prev row col then 1 else 0

/-- Rising edges of a sequence of frames that follows the frame `prev`. -/
def risingFrom (R C : Nat) : Frame → List Frame → Int
  | _, [] => 0
  | prev, f :: rest => risingCells R C prev f + risingFrom R C f rest

/-- Counts returned by successive passes, from the closed form of one pass. -/
def passCounts (R C : Nat) : List (Time × Frame) → KeyStates → List Int
  | [], _ => []
  | (now, f) :: rest, ks => edgeCount R C f ks :: passCounts R C rest (applyFrame R C now f ks)

/-- Key states after successive passes. -/
def passStates (R C : Nat) : List (Time × Frame) → KeyStates → KeyStates
  | [], ks => ks
  | (now, f) :: rest, ks => passStates R C rest (applyFrame R C now f ks)

/-- Board after successive passes. -/
def passBoard (colPins rowPins : List Pin) : List (Time × Frame) → Board → Board
  | [], b => b
  | (_, f) :: rest, b => passBoard colPins rowPins rest (scanBoard colPins rowPins f colPins.length b)

/-- Number of pairs (scan `i`, cell) with the cell active in scan `i` and inactive in scan
`i - 1`, or `i` the first scan; cells are those with `row < R` and `col < C`. -/
def risingEdgeCount (R C : Nat) (frames : List Frame) : Nat :=
  ((Finset.range frames.length ×ˢ (Finset.range R ×ˢ Finset.range C)).filter
    (fun x => (frames.getD x.1 (fun _ _ => false)) x.2.1 x.2.2 = true ∧
      (x.1 = 0 ∨ (frames.getD (x.1 - 1) (fun _ _ => false)) x.2.1 x.2.2 = false))).card

/-- Readings with exactly the cell `(row, col)` active. -/
def onlyCell (row col : Nat) : Frame := fun i j => decide (i = row) && decide (j = col)

/-- Readings with no cell active. -/
def noCell : Frame := fun _ _ => false

/-- Readings of one key pressed and released once per element of the list: the press is
seen by `a + 1` scans and the release by `b + 1` scans. -/
def tapFrames (row col : Nat) : List (Nat × Nat) → List Frame
  | [] => []
  | (a, b) :: rest =>
    List.replicate (a + 1) (onlyCell row col) ++
      (List.replicate (b + 1) noCell ++ tapFrames row col rest)

/-- Number of cells with `row < R` and `col < C` that are active in the readings `f`. -/
def activeCells (R C : Nat) (f : Frame) : Nat :=
  ((Finset.range R ×ˢ Finset.range C).filter (fun x => f x.1 x.2 = true)).card

/-- Whether some reading before pass `p` was active. -/
def seenBefore (input : Nat → Bool) (p : Nat) : Bool := (List.range p).any input

/-- The reading of pass `i` is inactive and an earlier reading was active. -/
def releasedAt (input : Nat → Bool) (i : Nat) : Bool := !input i && seenBefore input i

/-- What the polling loop, started at pass `p` and run for `fuel` passes, may have done. -/
def PollPost (input : Nat → Bool) (p fuel : Nat) : Run PollSt → Prop
  | Run.done st => p ≤ st.poll ∧ st.poll < p + fuel ∧ releasedAt input st.poll = true ∧
      ∀ k, p ≤ k → k < st.poll → releasedAt input k = false
  | Run.looping => ∀ k, p ≤ k → k < p + fuel → releasedAt input k = false
  | Run.panicked => False

/-- Clock value and readings of the successive `scanKeys` calls of a counting loop that tests
its condition with `ticks` clock reads and `scans` calls behind it, for `n` iterations. -/
def loopPasses (env : Env) (ticks scans n : Nat) : List (Time × Frame) :=
  (List.range n).map (fun i => (env.clock (ticks + 1 + 3 * i), env.frames (scans + i)))

/-- Inputs of a round whose clock is non-decreasing: it reads 0 at the first reading and 20 s
at every later one; no key is ever active. -/
def jumpEnv : Env :=
  { startKey := fun _ => false, clock := fun k => if k = 0 then 0 else 20000000000,
    frames := fun _ _ _ => false }

/-- Number of cells with `row < R` and `col < C` that are active in `f` and whose `isPressed`
flag in `ks` is false. -/
def freshCells (R C : Nat) (f : Frame) (ks : KeyStates) : Nat :=
  ((Finset.range R ×ˢ Finset.range C).filter
    (fun x => f x.1 x.2 = true ∧ pressedAt ks x.1 x.2 = false)).card

/-- Pin levels after the events `es`, from the levels `lv`. -/
def levelsAfter (lv : Pin → Bool) : List PinEvent → Pin → Bool
  | [] => lv
  | PinEvent.high p :: es => levelsAfter (fun q => if q = p then true else lv q) es
  | PinEvent.low p :: es => levelsAfter (fun q => if q = p then false else lv q) es
  | PinEvent.sleep _ :: es => levelsAfter lv es
  | PinEvent.get _ _ :: es => levelsAfter lv es

/-- The row reads among the events, in order: pin read and level returned. -/
def readsOf : List PinEvent → List (Pin × Bool)
  | [] => []
  | PinEvent.get p v :: es => (p, v) :: readsOf es
  | PinEvent.high _ :: es => readsOf es
  | PinEvent.low _ :: es => readsOf es
  | PinEvent.sleep _ :: es => readsOf es

/-- Event of the drive loop for the pin `ip.2` at index `ip.1` while column `col` is scanned. -/
def driveEvent (col : Nat) (ip : Nat × Pin) : PinEvent :=
  if ip.1 = col then PinEvent.high ip.2 else PinEvent.low ip.2

/-- Events of the drive loop for column `col`. -/
def driveEvents (colPins : List Pin) (col : Nat) : List PinEvent :=
  colPins.enum.map (driveEvent col)

/-- Events of the first `n` row reads of column `col`. -/
def readEvents (rowPins : List Pin) (f : Frame) (col n : Nat) : List PinEvent :=
  (List.range n).map (fun row => PinEvent.get (rowPins.getD row 0) (f row col))

/-- Events of the column loop body for `col`: drive, settle delay, row reads. -/
def columnEvents (colPins rowPins : List Pin) (f : Frame) (col : Nat) : List PinEvent :=
  driveEvents colPins col ++ (PinEvent.sleep (1 * millisecond) ::
    readEvents rowPins f col rowPins.length)

/-- Events of the first `m` columns of a pass. -/
def scanEvents (colPins rowPins : List Pin) (f : Frame) (m : Nat) : List PinEvent :=
  ((List.range m).map (columnEvents colPins rowPins f)).flatten

/-- Assignment `active[row][col] = v` in a ScanFrame. -/
def recordCell (frame : Frame) (row col : Nat) (v : Bool) : Frame :=
  fun i j => if i = row ∧ j = col then v else frame i j

/-- The operation `scan()` as the spec words it, with the drive and read sequence of
`scanKeys`: for each column in ascending order, drive that column High and all other columns
Low, wait the settle delay, then for each row in ascending order read the row and record
`active[row][col]`.  It starts from an empty frame and touches no key state. -/
def specScan (colPins rowPins : List Pin) (reading : Frame) (b : Board) : Frame × Board :=
  (List.range colPins.length).foldl
    (fun acc col =>
      (List.range rowPins.length).foldl
        (fun acc2 row =>
          (recordCell acc2.1 row col (reading row col),
            acc2.2.get (rowPins.getD row 0) (reading row col)))
        (acc.1, (driveColumns colPins col acc.2).sleep (1 * millisecond)))
    (noCell, b)

/-- The per-cell rule of the edge detector as the spec words it: the new cell state and the
number of events, for the four cases rising edge, held, falling edge, idle. -/
def specRule (active : Bool) (now : Time) (c : KeyState) : KeyState × Int :=
  if active = true ∧ c.isPressed = false then ({ isPressed := true, lastPress := now }, 1)
  else if active = true ∧ c.isPressed = true then (c, 0)
  else if active = false ∧ c.isPressed = true then ({ c with isPressed := false }, 0)
  else (c, 0)

/-- The operation `apply(frame, now)` as the spec words it, over the cells with `row < R` and
`col < C`: the event count and the new cell states. -/
def specApply (R C : Nat) (frame : Frame) (now : Time) (ks : KeyStates) : Int × KeyStates :=
  (∑ row in Finset.range R, ∑ col in Finset.range C,
      match getCell ks row col with
      | some c => (specRule (frame row col) now c).2
      | none => 0,
    ks.mapIdx (fun row r => r.mapIdx (fun col c =>
      if row < R ∧ col < C then (specRule (frame row col) now c).1 else c)))

/-- Whether the event is one of the start-cell poll: a drive of the column pin `c3`, a read
of the row pin `r2`, or a delay. -/
def isStartCellEvent (c3 r2 : Pin) : PinEvent → Bool
  | PinEvent.high p => decide (p = c3)
  | PinEvent.low p => decide (p = c3)
  | PinEvent.sleep _ => true
  | PinEvent.get p _ => decide (p = r2)

/-- Columns 0, 1 and 2 of `main` (GPIO5, GPIO6, GPIO7) are Low. -/
def ColsLow (lv : Pin → Bool) : Prop := lv 5 = false ∧ lv 6 = false ∧ lv 7 = false

/-- What `main` holds when it enters the service loop: pins initialised, key states
allocated, no count yet. -/
def main.start (b : Board) : MainSt :=
  { keyCount := 0, keyStates := main.initKeyStates, board := main.initPins b }

/-- Successive rounds of the service loop, one per element of the list of inputs. -/
def main.rounds (fuel : Nat) : List Env → MainSt → Run MainSt
  | [], s => Run.done s
  | env :: rest, s =>
    match main.round env fuel s with
    | Run.done s1 => main.rounds fuel rest s1
    | Run.panicked => Run.panicked
    | Run.looping => Run.looping

/-- Nearest integer to `x`, a tie going to the even neighbour. -/
def roundHalfEven (x : ℚ) : Int :=
  if x - ⌊x⌋ < 1 / 2 then ⌊x⌋
  else if 1 / 2 < x - ⌊x⌋ then ⌊x⌋ + 1
  else if ⌊x⌋ % 2 = 0 then ⌊x⌋ else ⌊x⌋ + 1

/-- The binary64 value nearest to the real number `q`, ties to even, as IEEE 754 defines the
result of a conversion or of an arithmetic operation: 53 significant bits, the last of them
of weight `2 ^ e` with `e` not below -1074.  Overflow to infinity is left out; the values of
this program are far below `2 ^ 1024`. -/
def binary64 (q : ℚ) : ℚ :=
  if q = 0 then 0
  else
    (if q < 0 then -1 else 1) *
      (roundHalfEven (|q| / 2 ^ (max (Int.log 2 |q| - 52) (-1074))) : ℚ) *
      2 ^ (max (Int.log 2 |q| - 52) (-1074))

/-- The value of `strconv.FormatFloat(x, 'f', 1, 64)`: the decimal expansion of `x` rounded
to one digit after the point, ties to even, with a minus sign for a negative `x`. -/
def formatFloat1 (x : ℚ) : String :=
  if x < 0 then
    "-" ++ (Nat.repr ((roundHalfEven (|x| * 10)).toNat / 10) ++ "." ++
      Nat.repr ((roundHalfEven (|x| * 10)).toNat % 10))
  else
    Nat.repr ((roundHalfEven (|x| * 10)).toNat / 10) ++ "." ++
      Nat.repr ((roundHalfEven (|x| * 10)).toNat % 10)

/-- The variable `speed` of `main`: `float64(keyCount) / 10.0`, a conversion to binary64 and
a binary64 division by the constant 10. -/
def main.speed (keyCount : Int) : ℚ :=
  binary64 (binary64 (keyCount : ℚ) / binary64 10)

/-- The variable `speedStr` of `main`. -/
def main.speedStr (keyCount : Int) : String :=
  formatFloat1 (main.speed keyCount)

/-! ## Lemmas: one pass of `scanKeys` in closed form -/

theorem getElem?_updCells (sel : Nat → Nat → Bool) (g : Nat → Nat → KeyState → KeyState)
    (ks : KeyStates) (row : Nat) :
    (updCells sel g ks)[row]? =
      (ks[row]?).map (fun r => r.mapIdx (fun col c => if sel row col then g row col c else c)) := by
  simp [updCells]

theorem getCell_updCells (sel : Nat → Nat → Bool) (g : Nat → Nat → KeyState → KeyState)
    (ks : KeyStates) (row col : Nat) :
    getCell (updCells sel g ks) row col =
      (getCell ks row col).map (fun c => if sel row col then g row col c else c) := by
  unfold getCell
  rw [getElem?_updCells]
  cases h : ks[row]? with
  | none => simp
  | some r => simp

theorem set_cell_self (ks : KeyStates) (row col : Nat) (r : List KeyState) (c : KeyState)
    (hr : ks[row]? = some r) (hc : r[col]? = some c) : ks.set row (r.set col c) = ks := by
  have h1 : r.set col c = r := by
    apply List.ext_getElem?
    intro n
    by_cases hn : col = n
    · subst hn; rw [List.getElem?_set]; simp [hc]
      exact (List.getElem?_eq_some.1 hc).1
    · simp [List.getElem?_set_ne hn]
  rw [h1]
  apply List.ext_getElem?
  intro n
  by_cases hn : row = n
  · subst hn; rw [List.getElem?_set]; simp [hr]
    exact (List.getElem?_eq_some.1 hr).1
  · simp [List.getElem?_set_ne hn]

theorem scanCell_eq (rowPins : List Pin) (now : Time) (reading : Frame) (col row : Nat)
    (st : ScanSt) (pin : Pin) (r : List KeyState) (c : KeyState)
    (hp : rowPins[row]? = some pin) (hr : st.keyStates[row]? = some r) (hc : r[col]? = some c) :
    scanCell rowPins now reading col st row =
      some { keyStates := st.keyStates.set row (r.set col (cellNext now (reading row col) c))
             keyCount := st.keyCount + cellEdge (reading row col) c
             board := st.board.get pin (reading row col) } := by
  have hrow : row < st.keyStates.length := (List.getElem?_eq_some.1 hr).1
  have hcol : col < r.length := (List.getElem?_eq_some.1 hc).1
  have hg : getCell st.keyStates row col = some c := by simp [getCell, hr, hc]
  cases hv : reading row col <;> cases hpr : c.isPressed <;>
    simp [scanCell, hp, hv, hg, hpr, modifyCell, hr, hc, cellNext, cellEdge, getCell,
      List.getElem?_set, hrow, hcol, set_cell_self _ _ _ _ _ hr hc]
  

theorem updCells_congr (sel1 sel2 : Nat → Nat → Bool) (g : Nat → Nat → KeyState → KeyState)
    (ks : KeyStates) (h : ∀ row col, sel1 row col = sel2 row col) :
    updCells sel1 g ks = updCells sel2 g ks := by
  have : sel1 = sel2 := by funext row col; exact h row col
  rw [this]

theorem updCells_set (sel : Nat → Nat → Bool) (g : Nat → Nat → KeyState → KeyState)
    (ks0 : KeyStates) (row col : Nat) (r0 : List KeyState) (c0 : KeyState)
    (hr : ks0[row]? = some r0) (hc : r0[col]? = some c0) (hsel : sel row col = false) :
    (updCells sel g ks0).set row
        ((r0.mapIdx (fun j c => if sel row j then g row j c else c)).set col (g row col c0)) =
      updCells (fun i j => sel i j || (decide (i = row) && decide (j = col))) g ks0 := by
  apply List.ext_getElem?
  intro n
  by_cases hn : row = n
  · subst hn
    have hlt : row < (updCells sel g ks0).length := by
      simp [updCells]; exact (List.getElem?_eq_some.1 hr).1
    rw [List.getElem?_set]
    simp only [getElem?_updCells, hlt, if_true, hr, Option.map_some', Option.some.injEq]
    apply List.ext_getElem?
    intro m
    by_cases hm : col = m
    · subst hm
      have hlt2 : col < (r0.mapIdx (fun j c => if sel row j then g row j c else c)).length := by
        simp; exact (List.getElem?_eq_some.1 hc).1
      have hlt3 : col < r0.length := (List.getElem?_eq_some.1 hc).1
      have hget : r0[col] = c0 := (List.getElem?_eq_some.1 hc).2
      rw [List.getElem?_set]
      simp [hlt3, hc, hsel, hget]
    · rw [List.getElem?_set_ne hm]
      have hm2 : ¬ m = col := fun h => hm h.symm
      simp [hm2]
  · rw [List.getElem?_set_ne hn, getElem?_updCells, getElem?_updCells]
    have hn2 : ¬ n = row := fun h => hn h.symm
    simp [hn2]

/-- The selector of the row loop: the cells of `sel` and the first `n` rows of column `col`. -/
theorem rows_loop (rowPins : List Pin) (now : Time) (reading : Frame) (col : Nat)
    (ks0 : KeyStates) (sel : Nat → Nat → Bool) (k : Int) (b : Board)
    (hin : ∀ row, row < rowPins.length → (getCell ks0 row col).isSome = true)
    (hsel : ∀ row, sel row col = false) (n : Nat) (hn : n ≤ rowPins.length) :
    (List.range n).foldlM (scanCell rowPins now reading col)
        { keyStates := updCells sel (fun i j => cellNext now (reading i j)) ks0
          keyCount := k, board := b } =
      some { keyStates := updCells (fun i j => sel i j || (decide (j = col) && decide (i < n)))
                            (fun i j => cellNext now (reading i j)) ks0
             keyCount := k + ∑ row in Finset.range n, edgeAt reading ks0 row col
             board := rowsBoard rowPins reading col n b } := by
  induction n with
  | zero =>
    simp [rowsBoard]
  | succ n ih =>
    have hlt : n < rowPins.length := hn
    rw [List.range_succ, List.foldlM_append, ih (Nat.le_of_lt hlt)]
    simp only [Option.bind_eq_bind, Option.some_bind, List.foldlM_cons, List.foldlM_nil,
      Option.pure_def, Option.bind_some]
    obtain ⟨c0, hc0⟩ := Option.isSome_iff_exists.1 (hin n hlt)
    have hc0b := hc0
    unfold getCell at hc0
    cases hr0 : ks0[n]? with
    | none => simp [hr0] at hc0
    | some r0 =>
      simp only [hr0] at hc0
      have hp : rowPins[n]? = some (rowPins.getD n 0) := by
        rw [List.getD_eq_getElem?_getD]
        rw [List.getElem?_eq_getElem hlt]; simp
      rw [scanCell_eq rowPins now reading col n _ (rowPins.getD n 0)
        (r0.mapIdx (fun j c => if (sel n j || (decide (j = col) && decide (n < n)))
            then cellNext now (reading n j) c else c)) c0 hp
        (by rw [getElem?_updCells, hr0]; rfl)
        (by simp [hc0, hsel])]
      congr 1
      simp only [ScanSt.mk.injEq]
      refine ⟨?_, ?_, ?_⟩
      · have h2 := updCells_set (fun i j => sel i j || (decide (j = col) && decide (i < n)))
          (fun i j => cellNext now (reading i j)) ks0 n col r0 c0 hr0 hc0 (by simp [hsel])
        rw [h2]
        apply updCells_congr
        intro i j
        have e : decide (i < n + 1) = (decide (i < n) || decide (i = n)) := by
          by_cases h1 : i < n <;> by_cases h2 : i = n <;> simp [h1, h2] <;> omega
        beta_reduce
        rw [e]
        generalize sel i j = a
        generalize decide (j = col) = b1
        generalize decide (i < n) = c1
        generalize decide (i = n) = d1
        cases a <;> cases b1 <;> cases c1 <;> cases d1 <;> rfl
      · rw [Finset.sum_range_succ]
        simp [edgeAt, hc0b]; ring
      · simp [rowsBoard, List.range_succ, List.foldl_append]

theorem updCells_none (sel : Nat → Nat → Bool) (g : Nat → Nat → KeyState → KeyState)
    (ks : KeyStates) (h : ∀ row col, sel row col = false) : updCells sel g ks = ks := by
  apply List.ext_getElem?
  intro n
  rw [getElem?_updCells]
  cases hr : ks[n]? with
  | none => rfl
  | some r =>
    simp only [Option.map_some', Option.some.injEq]
    apply List.ext_getElem?
    intro m
    simp [h]

theorem cols_loop (colPins rowPins : List Pin) (now : Time) (reading : Frame)
    (ks0 : KeyStates) (b : Board) (hin : InRange rowPins.length colPins.length ks0)
    (m : Nat) (hm : m ≤ colPins.length) :
    (List.range m).foldlM (scanColumn colPins rowPins now reading)
        { keyStates := ks0, keyCount := 0, board := b } =
      some { keyStates := updCells (fun i j => decide (j < m) && decide (i < rowPins.length))
                            (fun i j => cellNext now (reading i j)) ks0
             keyCount := ∑ col in Finset.range m,
                           ∑ row in Finset.range rowPins.length, edgeAt reading ks0 row col
             board := scanBoard colPins rowPins reading m b } := by
  induction m with
  | zero =>
    simp [scanBoard, updCells_none]
  | succ m ih =>
    have hlt : m < colPins.length := hm
    rw [List.range_succ, List.foldlM_append, ih (Nat.le_of_lt hlt)]
    simp only [Option.bind_eq_bind, Option.some_bind, List.foldlM_cons, List.foldlM_nil,
      Option.pure_def, Option.bind_some]
    unfold scanColumn
    simp only []
    rw [rows_loop rowPins now reading m ks0 _ _ _ (fun row hrow => hin row hrow m hlt)
      (by intro row; simp) rowPins.length (Nat.le_refl _)]
    congr 1
    simp only [ScanSt.mk.injEq]
    refine ⟨?_, ?_, ?_⟩
    · apply updCells_congr
      intro i j
      have e : decide (j < m + 1) = (decide (j < m) || decide (j = m)) := by
        by_cases h1 : j < m <;> by_cases h2 : j = m <;> simp [h1, h2] <;> omega
      rw [e]
      generalize decide (j < m) = a
      generalize decide (j = m) = b1
      generalize decide (i < rowPins.length) = c1
      cases a <;> cases b1 <;> cases c1 <;> rfl
    · rw [Finset.sum_range_succ]
    · simp [scanBoard, columnBoard, List.range_succ, List.foldl_append]

theorem scanKeys_eq (colPins rowPins : List Pin) (ks : KeyStates) (now : Time)
    (reading : Frame) (b : Board) (hin : InRange rowPins.length colPins.length ks) :
    scanKeys colPins rowPins ks now reading b =
      some (edgeCount rowPins.length colPins.length reading ks,
            applyFrame rowPins.length colPins.length now reading ks,
            scanBoard colPins rowPins reading colPins.length b) := by
  unfold scanKeys
  rw [cols_loop colPins rowPins now reading ks b hin colPins.length (Nat.le_refl _)]
  simp only [edgeCount, applyFrame, Option.some.injEq, Prod.mk.injEq, true_and, and_true]
  apply updCells_congr
  intro i j
  exact Bool.and_comm _ _

theorem getCell_applyFrame (R C : Nat) (now : Time) (f : Frame) (ks : KeyStates) (i j : Nat) :
    getCell (applyFrame R C now f ks) i j =
      (getCell ks i j).map (fun c => if decide (i < R) && decide (j < C)
        then cellNext now (f i j) c else c) := by
  unfold applyFrame
  rw [getCell_updCells]

theorem InRange_applyFrame (R C R1 C1 : Nat) (now : Time) (f : Frame) (ks : KeyStates)
    (h : InRange R C ks) : InRange R C (applyFrame R1 C1 now f ks) := by
  intro i hi j hj
  rw [getCell_applyFrame]
  simpa using h i hi j hj

theorem Shaped.inRange {R C : Nat} {ks : KeyStates} (h : Shaped R C ks) : InRange R C ks := by
  intro i hi j hj
  have hi2 : i < ks.length := Nat.lt_of_lt_of_le hi h.1
  have hj2 : j < (ks[i]).length := Nat.lt_of_lt_of_le hj (h.2 _ (List.getElem_mem _))
  simp [getCell, List.getElem?_eq_getElem hi2, List.getElem?_eq_getElem hj2]

theorem pressedAt_applyFrame (R C : Nat) (now : Time) (f : Frame) (ks : KeyStates)
    (h : InRange R C ks) (i j : Nat) (hi : i < R) (hj : j < C) :
    pressedAt (applyFrame R C now f ks) i j = f i j := by
  obtain ⟨c, hc⟩ := Option.isSome_iff_exists.1 (h i hi j hj)
  unfold pressedAt
  rw [getCell_applyFrame, hc]
  cases hf : f i j <;> cases hp : c.isPressed <;> simp [hi, hj, cellNext, hf, hp]

theorem edgeAt_eq (f : Frame) (ks : KeyStates) (i j : Nat)
    (h : (getCell ks i j).isSome = true) :
    edgeAt f ks i j = if f i j && !pressedAt ks i j then 1 else 0 := by
  obtain ⟨c, hc⟩ := Option.isSome_iff_exists.1 h
  simp [edgeAt, pressedAt, hc, cellEdge]

theorem edgeCount_eq_risingCells (R C : Nat) (f : Frame) (ks : KeyStates) (h : InRange R C ks) :
    edgeCount R C f ks = risingCells R C (pressedAt ks) f := by
  unfold edgeCount risingCells
  apply Finset.sum_congr rfl
  intro j hj
  apply Finset.sum_congr rfl
  intro i hi
  exact edgeAt_eq f ks i j (h i (Finset.mem_range.1 hi) j (Finset.mem_range.1 hj))

theorem risingCells_congr (R C : Nat) (prev1 prev2 f1 f2 : Frame)
    (hp : ∀ i, i < R → ∀ j, j < C → prev1 i j = prev2 i j)
    (hf : ∀ i, i < R → ∀ j, j < C → f1 i j = f2 i j) :
    risingCells R C prev1 f1 = risingCells R C prev2 f2 := by
  unfold risingCells
  apply Finset.sum_congr rfl
  intro j hj
  apply Finset.sum_congr rfl
  intro i hi
  rw [hp i (Finset.mem_range.1 hi) j (Finset.mem_range.1 hj),
    hf i (Finset.mem_range.1 hi) j (Finset.mem_range.1 hj)]

theorem scanPasses_eq (colPins rowPins : List Pin) (passes : List (Time × Frame))
    (ks : KeyStates) (b : Board) (h : InRange rowPins.length colPins.length ks) :
    scanPasses colPins rowPins passes ks b =
      some (passCounts rowPins.length colPins.length passes ks,
            passStates rowPins.length colPins.length passes ks,
            passBoard colPins rowPins passes b) := by
  induction passes generalizing ks b with
  | nil => rfl
  | cons p rest ih =>
    obtain ⟨now, f⟩ := p
    simp only [scanPasses, scanKeys_eq colPins rowPins ks now f b h]
    rw [ih _ _ (InRange_applyFrame _ _ _ _ now f ks h)]
    rfl

theorem passCounts_length (R C : Nat) (passes : List (Time × Frame)) (ks : KeyStates) :
    (passCounts R C passes ks).length = passes.length := by
  induction passes generalizing ks with
  | nil => rfl
  | cons p rest ih => obtain ⟨now, f⟩ := p; simp [passCounts, ih]

theorem risingFrom_congr (R C : Nat) (prev1 prev2 : Frame) (fs : List Frame)
    (hp : ∀ i, i < R → ∀ j, j < C → prev1 i j = prev2 i j) :
    risingFrom R C prev1 fs = risingFrom R C prev2 fs := by
  cases fs with
  | nil => rfl
  | cons f rest =>
    simp only [risingFrom]
    rw [risingCells_congr R C prev1 prev2 f f hp (fun _ _ _ _ => rfl)]

theorem passCounts_sum (R C : Nat) (passes : List (Time × Frame)) (ks : KeyStates)
    (h : InRange R C ks) :
    (passCounts R C passes ks).sum = risingFrom R C (pressedAt ks) (passes.map (fun p => p.2)) := by
  induction passes generalizing ks with
  | nil => rfl
  | cons p rest ih =>
    obtain ⟨now, f⟩ := p
    simp only [passCounts, List.sum_cons, List.map_cons, risingFrom]
    rw [ih _ (InRange_applyFrame _ _ _ _ now f ks h), edgeCount_eq_risingCells R C f ks h]
    congr 1
    apply risingFrom_congr
    intro i hi j hj
    exact pressedAt_applyFrame R C now f ks h i j hi hj

theorem risingCells_self (R C : Nat) (f : Frame) : risingCells R C f f = 0 := by
  unfold risingCells
  apply Finset.sum_eq_zero
  intro j _
  apply Finset.sum_eq_zero
  intro i _
  cases f i j <;> rfl

theorem risingCells_single (R C row col : Nat) (hrow : row < R) (hcol : col < C) :
    risingCells R C (fun _ _ => false) (fun i j => decide (i = row) && decide (j = col)) = 1 := by
  unfold risingCells
  rw [Finset.sum_eq_single col, Finset.sum_eq_single row]
  · simp
  · intro i _ hi; simp [hi]
  · intro h; exact absurd (Finset.mem_range.2 hrow) h
  · intro j _ hj
    apply Finset.sum_eq_zero
    intro i _
    simp [hj]
  · intro h; exact absurd (Finset.mem_range.2 hcol) h

theorem risingFrom_held (R C : Nat) (g : Frame) (fs : List Frame)
    (h : ∀ f ∈ fs, ∀ i, i < R → ∀ j, j < C → f i j = g i j) :
    risingFrom R C g fs = 0 := by
  induction fs with
  | nil => rfl
  | cons f rest ih =>
    simp only [risingFrom]
    have hf := h f (List.mem_cons_self _ _)
    rw [risingCells_congr R C g g f g (fun _ _ _ _ => rfl) hf, risingCells_self,
      risingFrom_congr R C f g rest hf, ih (fun f1 h1 => h f1 (List.mem_cons_of_mem _ h1))]
    rfl

/-- C1 (P1, edge exclusivity).  A single cell `(row, col)` held active during `N ≥ 1`
successive `scanKeys` calls, from a key state in which no cell is pressed and with every
other cell inactive: the calls all return, and the counts they return add up to exactly 1. -/
theorem C1_held_key_counts_once (colPins rowPins : List Pin) (ks : KeyStates) (b : Board)
    (row col : Nat) (passes : List (Time × Frame))
    (hrow : row < rowPins.length) (hcol : col < colPins.length)
    (hks : InRange rowPins.length colPins.length ks)
    (hidle : ∀ i, i < rowPins.length → ∀ j, j < colPins.length → pressedAt ks i j = false)
    (hN : 1 ≤ passes.length)
    (hheld : ∀ p ∈ passes, ∀ i, i < rowPins.length → ∀ j, j < colPins.length →
      p.2 i j = (decide (i = row) && decide (j = col))) :
    ∃ counts ks1 b1, scanPasses colPins rowPins passes ks b = some (counts, ks1, b1) ∧
      counts.length = passes.length ∧ counts.sum = 1 := by
  refine ⟨_, _, _, scanPasses_eq colPins rowPins passes ks b hks, passCounts_length _ _ _ _, ?_⟩
  rw [passCounts_sum _ _ _ _ hks]
  cases passes with
  | nil => simp at hN
  | cons p rest =>
    simp only [List.map_cons, risingFrom]
    have hp := hheld p (List.mem_cons_self _ _)
    rw [risingCells_congr _ _ (pressedAt ks) (fun _ _ => false) p.2
        (fun i j => decide (i = row) && decide (j = col)) hidle hp,
      risingCells_single _ _ row col hrow hcol,
      risingFrom_congr _ _ p.2 (fun i j => decide (i = row) && decide (j = col)) _ hp,
      risingFrom_held]
    · rfl
    · intro f hf
      obtain ⟨q, hq, rfl⟩ := List.mem_map.1 hf
      exact hheld q (List.mem_cons_of_mem _ hq)

/-- Witness for C1: the key at row 1, column 2 of the 3 x 4 matrix held during three passes. -/
theorem C1_held_key_counts_once_witness :
    ∃ counts ks1 b1,
      scanPasses main.colPins main.rowPins
        [(5, fun i j => decide (i = 1) && decide (j = 2)),
         (9, fun i j => decide (i = 1) && decide (j = 2)),
         (13, fun i j => decide (i = 1) && decide (j = 2))]
        main.initKeyStates { level := fun _ => false, log := [] } = some (counts, ks1, b1) ∧
      counts.length = 3 ∧ counts.sum = 1 :=
  C1_held_key_counts_once main.colPins main.rowPins main.initKeyStates
    { level := fun _ => false, log := [] } 1 2 _ (by decide) (by decide)
    (by intro i hi j hj
        have hi3 : i < 3 := hi
        have hj4 : j < 4 := hj
        interval_cases i <;> interval_cases j <;> rfl)
    (by intro i hi j hj
        have hi3 : i < 3 := hi
        have hj4 : j < 4 := hj
        interval_cases i <;> interval_cases j <;> rfl)
    (by decide)
    (by intro p hp i _ j _
        simp only [List.mem_cons, List.mem_singleton, List.not_mem_nil, or_false] at hp
        rcases hp with rfl | rfl | rfl <;> rfl)

theorem getD_cons_pred (f : Frame) (rest : List Frame) (d : Frame) (i : Nat) :
    (f :: rest).getD i d = if i = 0 then f else rest.getD (i - 1) d := by
  cases i <;> simp

theorem risingCells_eq_sum (R C : Nat) (prev f : Frame) :
    risingCells R C prev f =
      ∑ r in Finset.range R, ∑ c in Finset.range C,
        if f r c = true ∧ prev r c = false then (1 : Int) else 0 := by
  unfold risingCells
  rw [Finset.sum_comm]
  apply Finset.sum_congr rfl
  intro r _
  apply Finset.sum_congr rfl
  intro c _
  cases f r c <;> cases prev r c <;> rfl

theorem risingFrom_eq_sum (R C : Nat) (prev : Frame) (frames : List Frame) :
    risingFrom R C prev frames =
      ∑ i in Finset.range frames.length, ∑ r in Finset.range R, ∑ c in Finset.range C,
        if (frames.getD i (fun _ _ => false)) r c = true ∧
            (if i = 0 then prev r c = false
             else (frames.getD (i - 1) (fun _ _ => false)) r c = false)
        then (1 : Int) else 0 := by
  induction frames generalizing prev with
  | nil => simp [risingFrom]
  | cons f rest ih =>
    simp only [risingFrom, List.length_cons]
    rw [Finset.sum_range_succ', ih f, risingCells_eq_sum, add_comm]
    congr 1
    · apply Finset.sum_congr rfl
      intro i _
      apply Finset.sum_congr rfl
      intro r _
      apply Finset.sum_congr rfl
      intro c _
      simp only [List.getD_cons_succ, Nat.succ_ne_zero, if_false, Nat.add_sub_cancel,
        getD_cons_pred f rest]
      by_cases hi : i = 0 <;> simp [hi]

theorem risingFrom_eq_count (R C : Nat) (frames : List Frame) :
    risingFrom R C (fun _ _ => false) frames = (risingEdgeCount R C frames : Int) := by
  rw [risingFrom_eq_sum]
  unfold risingEdgeCount
  rw [Finset.card_filter, Finset.sum_product]
  push_cast
  apply Finset.sum_congr rfl
  intro i _
  rw [Finset.sum_product]
  apply Finset.sum_congr rfl
  intro r _
  apply Finset.sum_congr rfl
  intro c _
  by_cases hi : i = 0 <;> simp [hi]

theorem risingFrom_replicate_append (R C : Nat) (g : Frame) (n : Nat) (ys : List Frame) :
    risingFrom R C g (List.replicate n g ++ ys) = risingFrom R C g ys := by
  induction n with
  | zero => simp
  | succ n ih =>
    simp only [List.replicate_succ, List.cons_append, risingFrom, risingCells_self, zero_add]
    exact ih

theorem risingCells_noCell (R C : Nat) (prev : Frame) : risingCells R C prev noCell = 0 := by
  unfold risingCells noCell
  simp

theorem risingFrom_taps (R C row col : Nat) (hrow : row < R) (hcol : col < C)
    (taps : List (Nat × Nat)) :
    risingFrom R C noCell (tapFrames row col taps) = taps.length := by
  induction taps with
  | nil => simp [tapFrames, risingFrom]
  | cons t rest ih =>
    obtain ⟨a, b⟩ := t
    have h1 : risingCells R C noCell (onlyCell row col) = 1 :=
      risingCells_single R C row col hrow hcol
    simp only [tapFrames, List.replicate_succ, List.cons_append, risingFrom, List.append_eq,
      risingFrom_replicate_append, ih, risingCells_noCell, List.length_cons, h1]
    push_cast
    ring

theorem initKeyStates_inRange : InRange main.rowPins.length main.colPins.length main.initKeyStates := by
  intro i hi j hj
  have hi3 : i < 3 := hi
  have hj4 : j < 4 := hj
  interval_cases i <;> interval_cases j <;> rfl

theorem initKeyStates_idle (i j : Nat) : pressedAt main.initKeyStates i j = false := by
  unfold pressedAt getCell main.initKeyStates
  rw [List.getElem?_replicate]
  by_cases hi : i < ROWS
  · simp only [hi, if_true]
    rw [List.getElem?_replicate]
    by_cases hj : j < COLS <;> simp [hj]
  · simp [hi]

/-- C2 (Scenario A generalised).  From a key state with no cell pressed, successive
`scanKeys` calls on any finite sequence of readings all return, and the counts they return add
up to the number of rising edges of the sequence: the pairs (scan, cell) with the cell active
in that scan and inactive in the scan before it, or in the first scan.  In particular one key
pressed and released `k` times, every press and every release seen by at least one scan,
gives a total of `k`. -/
theorem C2_counts_are_rising_edges (colPins rowPins : List Pin) (ks : KeyStates) (b : Board)
    (passes : List (Time × Frame))
    (hks : InRange rowPins.length colPins.length ks)
    (hidle : ∀ i, i < rowPins.length → ∀ j, j < colPins.length → pressedAt ks i j = false) :
    ∃ counts ks1 b1, scanPasses colPins rowPins passes ks b = some (counts, ks1, b1) ∧
      counts.sum =
        (risingEdgeCount rowPins.length colPins.length (passes.map (fun p => p.2)) : Int) ∧
      ∀ row col taps, row < rowPins.length → col < colPins.length →
        passes.map (fun p => p.2) = tapFrames row col taps → counts.sum = taps.length := by
  refine ⟨_, _, _, scanPasses_eq colPins rowPins passes ks b hks, ?_, ?_⟩
  · rw [passCounts_sum _ _ _ _ hks, ← risingFrom_eq_count]
    exact risingFrom_congr _ _ _ _ _ hidle
  · intro row col taps hrow hcol hp
    rw [passCounts_sum _ _ _ _ hks, hp, ← risingFrom_taps _ _ row col hrow hcol taps]
    exact risingFrom_congr _ _ _ _ _ hidle

/-- Witness for C2: the key at row 2, column 3 tapped seven times in one window of the
3 x 4 matrix gives a total of 7. -/
theorem C2_counts_are_rising_edges_witness :
    ∃ counts ks1 b1,
      scanPasses main.colPins main.rowPins
        ((tapFrames 2 3 [(0, 0), (1, 0), (0, 2), (0, 0), (3, 1), (0, 0), (0, 0)]).map
          (fun f => ((0 : Time), f)))
        main.initKeyStates { level := fun _ => false, log := [] } = some (counts, ks1, b1) ∧
      counts.sum = 7 := by
  obtain ⟨counts, ks1, b1, h1, _, h3⟩ :=
    C2_counts_are_rising_edges main.colPins main.rowPins main.initKeyStates
      { level := fun _ => false, log := [] }
      ((tapFrames 2 3 [(0, 0), (1, 0), (0, 2), (0, 0), (3, 1), (0, 0), (0, 0)]).map
        (fun f => ((0 : Time), f)))
      initKeyStates_inRange (fun i _ j _ => initKeyStates_idle i j)
  refine ⟨counts, ks1, b1, h1, ?_⟩
  have h7 := h3 2 3 [(0, 0), (1, 0), (0, 2), (0, 0), (3, 1), (0, 0), (0, 0)]
    (by decide) (by decide) (by simp [List.map_map, Function.comp_def])
  simpa using h7

theorem getCell_resetKeyStates (ks : KeyStates) (i j : Nat) :
    getCell (main.resetKeyStates ks) i j =
      (getCell ks i j).map (fun c => { c with isPressed := false }) := by
  unfold getCell main.resetKeyStates
  rw [List.getElem?_map]
  cases ks[i]? with
  | none => rfl
  | some r => simp

theorem InRange_resetKeyStates (R C : Nat) (ks : KeyStates) (h : InRange R C ks) :
    InRange R C (main.resetKeyStates ks) := by
  intro i hi j hj
  rw [getCell_resetKeyStates]
  simpa using h i hi j hj

theorem pressedAt_resetKeyStates (ks : KeyStates) (i j : Nat) :
    pressedAt (main.resetKeyStates ks) i j = false := by
  unfold pressedAt
  rw [getCell_resetKeyStates]
  cases getCell ks i j <;> rfl

theorem risingCells_idle (R C : Nat) (f : Frame) :
    risingCells R C (fun _ _ => false) f = (activeCells R C f : Int) := by
  rw [risingCells_eq_sum]
  unfold activeCells
  rw [Finset.card_filter, Finset.sum_product]
  push_cast
  apply Finset.sum_congr rfl
  intro r _
  apply Finset.sum_congr rfl
  intro c _
  simp

/-- C3 (P2, reset clears latches).  Whatever pressed flags and timestamps earlier scans left
in the key state, after the reset loop of `main` the next `scanKeys` call returns, and the count
it returns is the number of cells active in its readings: every active cell is a fresh rising
edge, also one that was latched as pressed before the reset. -/
theorem C3_reset_clears_latches (colPins rowPins : List Pin) (ks : KeyStates) (now : Time)
    (f : Frame) (b : Board) (hks : InRange rowPins.length colPins.length ks) :
    ∃ ks1 b1, scanKeys colPins rowPins (main.resetKeyStates ks) now f b =
      some ((activeCells rowPins.length colPins.length f : Int), ks1, b1) := by
  have hr := InRange_resetKeyStates _ _ ks hks
  refine ⟨applyFrame rowPins.length colPins.length now f (main.resetKeyStates ks),
    scanBoard colPins rowPins f colPins.length b, ?_⟩
  rw [scanKeys_eq colPins rowPins _ now f b hr, edgeCount_eq_risingCells _ _ _ _ hr,
    ← risingCells_idle,
    risingCells_congr _ _ (pressedAt (main.resetKeyStates ks)) (fun _ _ => false) f f
      (fun i _ j _ => pressedAt_resetKeyStates ks i j) (fun _ _ _ _ => rfl)]

/-- Witness for C3: the cell at row 0, column 1 was latched as pressed and is still active;
it is counted with the other active cell. -/
theorem C3_reset_clears_latches_witness :
    ∃ ks1 b1, scanKeys main.colPins main.rowPins
        (main.resetKeyStates
          [[⟨false, 0⟩, ⟨true, 7⟩, ⟨false, 0⟩, ⟨false, 0⟩],
           [⟨false, 0⟩, ⟨false, 0⟩, ⟨true, 3⟩, ⟨false, 0⟩],
           [⟨false, 0⟩, ⟨false, 0⟩, ⟨false, 0⟩, ⟨false, 0⟩]])
        20 (fun i j => decide (j = 1) && decide (i ≤ 1)) { level := fun _ => false, log := [] } =
      some (2, ks1, b1) := by
  have h := C3_reset_clears_latches main.colPins main.rowPins
    [[⟨false, 0⟩, ⟨true, 7⟩, ⟨false, 0⟩, ⟨false, 0⟩],
     [⟨false, 0⟩, ⟨false, 0⟩, ⟨true, 3⟩, ⟨false, 0⟩],
     [⟨false, 0⟩, ⟨false, 0⟩, ⟨false, 0⟩, ⟨false, 0⟩]]
    20 (fun i j => decide (j = 1) && decide (i ≤ 1)) { level := fun _ => false, log := [] }
    (by intro i hi j hj
        have hi3 : i < 3 := hi
        have hj4 : j < 4 := hj
        interval_cases i <;> interval_cases j <;> rfl)
  have h2 : activeCells main.rowPins.length main.colPins.length
      (fun i j => decide (j = 1) && decide (i ≤ 1)) = 2 := by decide
  rw [h2] at h
  exact h

theorem edgeCount_eq_sum_fin (R C : Nat) (f : Frame) (ks : KeyStates) :
    edgeCount R C f ks = ∑ p : Fin R × Fin C, edgeAt f ks p.1 p.2 := by
  unfold edgeCount
  rw [Finset.sum_comm, Fintype.sum_prod_type, Finset.sum_range]
  apply Finset.sum_congr rfl
  intro i _
  rw [Finset.sum_range]

theorem activeCells_pair (R C : Nat) (f : Frame) (a b : Nat × Nat)
    (ha1 : a.1 < R) (ha2 : a.2 < C) (hb1 : b.1 < R) (hb2 : b.2 < C) (hab : a ≠ b)
    (hf : ∀ i, i < R → ∀ j, j < C → f i j = decide ((i, j) = a ∨ (i, j) = b)) :
    activeCells R C f = 2 := by
  unfold activeCells
  have hset : (Finset.range R ×ˢ Finset.range C).filter (fun x => f x.1 x.2 = true) = {a, b} := by
    ext x
    simp only [Finset.mem_filter, Finset.mem_product, Finset.mem_range, Finset.mem_insert,
      Finset.mem_singleton]
    constructor
    · rintro ⟨⟨h1, h2⟩, h3⟩
      rw [hf _ h1 _ h2] at h3
      simpa using h3
    · rintro (rfl | rfl)
      · exact ⟨⟨ha1, ha2⟩, by rw [hf _ ha1 _ ha2]; simp⟩
      · exact ⟨⟨hb1, hb2⟩, by rw [hf _ hb1 _ hb2]; simp⟩
  rw [hset, Finset.card_pair hab]

/-- C4 (P3, independence).  First part: from a key state with no cell pressed, one `scanKeys`
call on readings in which exactly two distinct cells `a` and `b` of the matrix are active
returns 2.  Second part: the count does not depend on which cell sits where: if the key state
`ks2` and the readings `f2` are the key state `ks1` and the readings `f1` with the cells
permuted by `σ`, both calls return the same count. -/
theorem C4_independence (colPins rowPins : List Pin) (now : Time) (brd : Board)
    (ks : KeyStates) (f : Frame) (a b : Nat × Nat)
    (hks : InRange rowPins.length colPins.length ks)
    (hidle : ∀ i, i < rowPins.length → ∀ j, j < colPins.length → pressedAt ks i j = false)
    (ha1 : a.1 < rowPins.length) (ha2 : a.2 < colPins.length)
    (hb1 : b.1 < rowPins.length) (hb2 : b.2 < colPins.length) (hab : a ≠ b)
    (hf : ∀ i, i < rowPins.length → ∀ j, j < colPins.length →
      f i j = decide ((i, j) = a ∨ (i, j) = b))
    (σ : Equiv.Perm (Fin rowPins.length × Fin colPins.length))
    (ks1 ks2 : KeyStates) (f1 f2 : Frame)
    (hks1 : InRange rowPins.length colPins.length ks1)
    (hks2 : InRange rowPins.length colPins.length ks2)
    (hperm : ∀ p : Fin rowPins.length × Fin colPins.length,
      getCell ks2 p.1 p.2 = getCell ks1 (σ p).1 (σ p).2 ∧ f2 p.1 p.2 = f1 (σ p).1 (σ p).2) :
    (∃ ks3 b3, scanKeys colPins rowPins ks now f brd = some (2, ks3, b3)) ∧
    ∃ n ks3 b3 ks4 b4, scanKeys colPins rowPins ks1 now f1 brd = some (n, ks3, b3) ∧
      scanKeys colPins rowPins ks2 now f2 brd = some (n, ks4, b4) := by
  constructor
  · refine ⟨applyFrame rowPins.length colPins.length now f ks,
      scanBoard colPins rowPins f colPins.length brd, ?_⟩
    rw [scanKeys_eq colPins rowPins ks now f brd hks, edgeCount_eq_risingCells _ _ _ _ hks,
      risingCells_congr _ _ (pressedAt ks) (fun _ _ => false) f f hidle (fun _ _ _ _ => rfl),
      risingCells_idle, activeCells_pair _ _ f a b ha1 ha2 hb1 hb2 hab hf]
    rfl
  · refine ⟨edgeCount rowPins.length colPins.length f1 ks1,
      applyFrame rowPins.length colPins.length now f1 ks1,
      scanBoard colPins rowPins f1 colPins.length brd,
      applyFrame rowPins.length colPins.length now f2 ks2,
      scanBoard colPins rowPins f2 colPins.length brd,
      scanKeys_eq colPins rowPins ks1 now f1 brd hks1, ?_⟩
    rw [scanKeys_eq colPins rowPins ks2 now f2 brd hks2]
    have hcount : edgeCount rowPins.length colPins.length f2 ks2 =
        edgeCount rowPins.length colPins.length f1 ks1 := by
      rw [edgeCount_eq_sum_fin, edgeCount_eq_sum_fin,
        ← Equiv.sum_comp σ (fun p => edgeAt f1 ks1 p.1 p.2)]
      apply Finset.sum_congr rfl
      intro p _
      unfold edgeAt
      rw [(hperm p).1, (hperm p).2]
    rw [hcount]

/-- Witness for C4: the cells (0, 0) and (1, 0) pressed together, and a key state and
readings with the cells (0, 0) and (1, 2) exchanged (one held key, one new key). -/
theorem C4_independence_witness :
    (∃ ks3 b3, scanKeys main.colPins main.rowPins main.initKeyStates 5
        (fun i j => decide ((i, j) = (0, 0) ∨ (i, j) = (1, 0)))
        { level := fun _ => false, log := [] } = some (2, ks3, b3)) ∧
    ∃ n ks3 b3 ks4 b4,
      scanKeys main.colPins main.rowPins
        [[⟨true, 1⟩, ⟨false, 0⟩, ⟨false, 0⟩, ⟨false, 0⟩],
         [⟨false, 0⟩, ⟨false, 0⟩, ⟨false, 2⟩, ⟨false, 0⟩],
         [⟨false, 0⟩, ⟨false, 0⟩, ⟨false, 0⟩, ⟨false, 0⟩]]
        5 (fun i j => decide ((i, j) = (0, 0) ∨ (i, j) = (2, 3)))
        { level := fun _ => false, log := [] } = some (n, ks3, b3) ∧
      scanKeys main.colPins main.rowPins
        [[⟨false, 2⟩, ⟨false, 0⟩, ⟨false, 0⟩, ⟨false, 0⟩],
         [⟨false, 0⟩, ⟨false, 0⟩, ⟨true, 1⟩, ⟨false, 0⟩],
         [⟨false, 0⟩, ⟨false, 0⟩, ⟨false, 0⟩, ⟨false, 0⟩]]
        5 (fun i j => decide ((i, j) = (1, 2) ∨ (i, j) = (2, 3)))
        { level := fun _ => false, log := [] } = some (n, ks4, b4) :=
  C4_independence main.colPins main.rowPins 5 { level := fun _ => false, log := [] }
    main.initKeyStates (fun i j => decide ((i, j) = (0, 0) ∨ (i, j) = (1, 0))) (0, 0) (1, 0)
    initKeyStates_inRange (fun i _ j _ => initKeyStates_idle i j)
    (by decide) (by decide) (by decide) (by decide) (by decide)
    (fun _ _ _ _ => rfl)
    (Equiv.swap (⟨0, by decide⟩, ⟨0, by decide⟩) (⟨1, by decide⟩, ⟨2, by decide⟩))
    [[⟨true, 1⟩, ⟨false, 0⟩, ⟨false, 0⟩, ⟨false, 0⟩],
     [⟨false, 0⟩, ⟨false, 0⟩, ⟨false, 2⟩, ⟨false, 0⟩],
     [⟨false, 0⟩, ⟨false, 0⟩, ⟨false, 0⟩, ⟨false, 0⟩]]
    [[⟨false, 2⟩, ⟨false, 0⟩, ⟨false, 0⟩, ⟨false, 0⟩],
     [⟨false, 0⟩, ⟨false, 0⟩, ⟨true, 1⟩, ⟨false, 0⟩],
     [⟨false, 0⟩, ⟨false, 0⟩, ⟨false, 0⟩, ⟨false, 0⟩]]
    (fun i j => decide ((i, j) = (0, 0) ∨ (i, j) = (2, 3)))
    (fun i j => decide ((i, j) = (1, 2) ∨ (i, j) = (2, 3)))
    (by intro i hi j hj
        have hi3 : i < 3 := hi
        have hj4 : j < 4 := hj
        interval_cases i <;> interval_cases j <;> rfl)
    (by intro i hi j hj
        have hi3 : i < 3 := hi
        have hj4 : j < 4 := hj
        interval_cases i <;> interval_cases j <;> rfl)
    (by decide)

theorem seenBefore_succ (input : Nat → Bool) (p : Nat) :
    seenBefore input (p + 1) = (seenBefore input p || input p) := by
  simp [seenBefore, List.range_succ, List.any_append]

theorem seenBefore_iff (input : Nat → Bool) (p : Nat) :
    seenBefore input p = true ↔ ∃ j, j < p ∧ input j = true := by
  simp [seenBefore, List.any_eq_true]

theorem releasedAt_iff (input : Nat → Bool) (i : Nat) :
    releasedAt input i = true ↔ input i = false ∧ ∃ j, j < i ∧ input j = true := by
  simp [releasedAt, seenBefore_iff]

theorem PollPost_step (input : Nat → Bool) (p fuel : Nat) (r : Run PollSt)
    (hrel : releasedAt input p = false) (h : PollPost input (p + 1) fuel r) :
    PollPost input p (fuel + 1) r := by
  cases r with
  | done st =>
    obtain ⟨a1, a2, a3, a4⟩ := h
    refine ⟨by omega, by omega, a3, ?_⟩
    intro k hk1 hk2
    by_cases hkp : k = p
    · rw [hkp]; exact hrel
    · exact a4 k (by omega) hk2
  | looping =>
    intro k hk1 hk2
    by_cases hkp : k = p
    · rw [hkp]; exact hrel
    · exact h k (by omega) (by omega)
  | panicked => exact h

/-- Invariant of the polling loop, started at pass `p` with `wasPressed` telling whether an
earlier reading was active. -/
theorem pollLoop_spec (colPins rowPins : List Pin) (input : Nat → Bool)
    (h3 : 3 < colPins.length) (h2 : 2 < rowPins.length) (fuel : Nat) :
    ∀ (p : Nat) (b : Board) (w : Bool), w = seenBefore input p →
      PollPost input p fuel
        (pollLoop colPins rowPins input fuel { wasPressed := w, board := b, poll := p }) := by
  induction fuel with
  | zero =>
    intro p b w _ k h1 h2
    omega
  | succ fuel ih =>
    intro p b w hw
    have hc : colPins[3]? = some colPins[3] := List.getElem?_eq_getElem h3
    have hr : rowPins[2]? = some rowPins[2] := List.getElem?_eq_getElem h2
    cases hv : input p with
    | true =>
      have hrel : releasedAt input p = false := by simp [releasedAt, hv]
      simp only [pollLoop, pollOnce, hc, hr, hv, if_true]
      apply PollPost_step input p fuel _ hrel
      apply ih
      rw [seenBefore_succ, hv, ← hw]
      cases w <;> rfl
    | false =>
      cases hs : seenBefore input p with
      | true =>
        rw [hs] at hw
        subst hw
        simp only [pollLoop, pollOnce, hc, hr, hv, if_true, Bool.false_eq_true, if_false]
        refine ⟨Nat.le_refl _, ?_, by simp [releasedAt, hv, hs], ?_⟩
        · show p < p + (fuel + 1)
          omega
        · intro k hk1 hk2
          have hk3 : k < p := hk2
          omega
      | false =>
        rw [hs] at hw
        subst hw
        have hrel : releasedAt input p = false := by simp [releasedAt, hv, hs]
        simp only [pollLoop, pollOnce, hc, hr, hv, Bool.false_eq_true, if_false]
        apply PollPost_step input p fuel _ hrel
        apply ih
        rw [seenBefore_succ, hv, hs]
        rfl


theorem waitForSW12Key_spec (colPins rowPins : List Pin) (input : Nat → Bool) (b : Board)
    (h3 : 3 < colPins.length) (h2 : 2 < rowPins.length) (fuel : Nat) :
    (∃ i b1, waitForSW12Key colPins rowPins input fuel b = Run.done (i, b1) ∧ i < fuel ∧
        releasedAt input i = true ∧ ∀ k, k < i → releasedAt input k = false) ∨
    (waitForSW12Key colPins rowPins input fuel b = Run.looping ∧
        ∀ k, k < fuel → releasedAt input k = false) := by
  have h := pollLoop_spec colPins rowPins input h3 h2 fuel 0 b false rfl
  unfold waitForSW12Key
  revert h
  generalize pollLoop colPins rowPins input fuel { wasPressed := false, board := b, poll := 0 } = r
  intro h
  cases r with
  | done st =>
    obtain ⟨_, a2, a3, a4⟩ := h
    left
    exact ⟨st.poll, _, rfl, by omega, a3, fun k hk => a4 k (Nat.zero_le _) hk⟩
  | looping =>
    right
    exact ⟨rfl, fun k hk => h k (Nat.zero_le _) (by omega)⟩
  | panicked => exact h.elim

theorem waitForSW12Key_exit (colPins rowPins : List Pin) (input : Nat → Bool) (b : Board)
    (h3 : 3 < colPins.length) (h2 : 2 < rowPins.length) (i fuel : Nat) (hfuel : i < fuel)
    (hrel : releasedAt input i = true) (hmin : ∀ k, k < i → releasedAt input k = false) :
    ∃ b1, waitForSW12Key colPins rowPins input fuel b = Run.done (i, b1) := by
  rcases waitForSW12Key_spec colPins rowPins input b h3 h2 fuel with
    ⟨i1, b1, e, _, a3, a4⟩ | ⟨_, a⟩
  · have hi : i1 = i := by
      rcases Nat.lt_trichotomy i1 i with h | h | h
      · rw [hmin i1 h] at a3; cases a3
      · exact h
      · rw [a4 i h] at hrel; cases hrel
    rw [← hi]
    exact ⟨b1, e⟩
  · rw [a i hfuel] at hrel; cases hrel

theorem waitForSW12Key_idle (colPins rowPins : List Pin) (input : Nat → Bool) (b : Board)
    (h3 : 3 < colPins.length) (h2 : 2 < rowPins.length) (fuel : Nat)
    (hnever : ∀ k, releasedAt input k = false) :
    waitForSW12Key colPins rowPins input fuel b = Run.looping := by
  rcases waitForSW12Key_spec colPins rowPins input b h3 h2 fuel with
    ⟨i1, b1, _, _, a3, _⟩ | ⟨e, _⟩
  · rw [hnever i1] at a3; cases a3
  · exact e

theorem releasedAt_held (input : Nat → Bool) (n : Nat) (h1 : ∀ k, k < n → input k = false)
    (h2 : ∀ k, n ≤ k → input k = true) (k : Nat) : releasedAt input k = false := by
  by_cases hk : n ≤ k
  · simp [releasedAt, h2 k hk]
  · have hs : seenBefore input k = false := by
      cases hsb : seenBefore input k with
      | false => rfl
      | true =>
        obtain ⟨j, hj, hjt⟩ := (seenBefore_iff input k).1 hsb
        rw [h1 j (by omega)] at hjt
        cases hjt
    simp [releasedAt, hs]

/-- C5 (start-key gate, Scenario C).  With `colPins[3]` and `rowPins[2]` in range, the polling
loop of `waitForSW12Key` leaves at pass `i` exactly when `i` is the first pass whose reading is
inactive after some earlier reading was active, and then it does return for every bound above
`i`.  For a key pressed and held (inactive up to some pass, active in every pass from then on),
and for a key never pressed (the case with no active pass at all), the loop is still polling
after any number of passes, and the round of `main` never reaches the counting loop. -/
theorem C5_start_key_gate (colPins rowPins : List Pin) (b : Board)
    (h3 : 3 < colPins.length) (h2 : 2 < rowPins.length) :
    (∀ input i, (∃ fuel b1, waitForSW12Key colPins rowPins input fuel b = Run.done (i, b1)) ↔
      (input i = false ∧ (∃ j, j < i ∧ input j = true) ∧
        ∀ k, k < i → ¬ (input k = false ∧ ∃ j, j < k ∧ input j = true))) ∧
    (∀ input i fuel, i < fuel → input i = false → (∃ j, j < i ∧ input j = true) →
      (∀ k, k < i → ¬ (input k = false ∧ ∃ j, j < k ∧ input j = true)) →
      ∃ b1, waitForSW12Key colPins rowPins input fuel b = Run.done (i, b1)) ∧
    (∀ input n fuel, (∀ k, k < n → input k = false) → (∀ k, n ≤ k → input k = true) →
      waitForSW12Key colPins rowPins input fuel b = Run.looping) ∧
    (∀ input fuel, (∀ k, input k = false) →
      waitForSW12Key colPins rowPins input fuel b = Run.looping) ∧
    (∀ env n fuel prev, (∀ k, k < n → env.startKey k = false) →
      (∀ k, n ≤ k → env.startKey k = true) → main.round env fuel prev = Run.looping) := by
  have hmin : ∀ (input : Nat → Bool) (i : Nat),
      (∀ k, k < i → ¬ (input k = false ∧ ∃ j, j < k ∧ input j = true)) →
      ∀ k, k < i → releasedAt input k = false := by
    intro input i h k hk
    cases hr : releasedAt input k with
    | false => rfl
    | true => exact absurd ((releasedAt_iff input k).1 hr) (h k hk)
  refine ⟨?_, ?_, ?_, ?_, ?_⟩
  · intro input i
    constructor
    · rintro ⟨fuel, b1, e⟩
      rcases waitForSW12Key_spec colPins rowPins input b h3 h2 fuel with
        ⟨i1, b2, e2, _, a3, a4⟩ | ⟨e2, _⟩
      · rw [e2] at e
        injection e with e
        injection e with e1 _
        subst e1
        obtain ⟨c1, c2⟩ := (releasedAt_iff input i1).1 a3
        refine ⟨c1, c2, ?_⟩
        intro k hk hc
        have := a4 k hk
        rw [(releasedAt_iff input k).2 hc] at this
        cases this
      · rw [e2] at e; cases e
    · rintro ⟨c1, c2, c3⟩
      obtain ⟨b1, e⟩ := waitForSW12Key_exit colPins rowPins input b h3 h2 i (i + 1)
        (Nat.lt_succ_self i) ((releasedAt_iff input i).2 ⟨c1, c2⟩) (hmin input i c3)
      exact ⟨i + 1, b1, e⟩
  · intro input i fuel hfuel c1 c2 c3
    exact waitForSW12Key_exit colPins rowPins input b h3 h2 i fuel hfuel
      ((releasedAt_iff input i).2 ⟨c1, c2⟩) (hmin input i c3)
  · intro input n fuel g1 g2
    exact waitForSW12Key_idle colPins rowPins input b h3 h2 fuel (releasedAt_held input n g1 g2)
  · intro input fuel g
    apply waitForSW12Key_idle colPins rowPins input b h3 h2 fuel
    intro k
    cases hr : releasedAt input k with
    | false => rfl
    | true =>
      obtain ⟨_, j, _, hj⟩ := (releasedAt_iff input k).1 hr
      rw [g j] at hj
      cases hj
  · intro env n fuel prev g1 g2
    unfold main.round
    rw [waitForSW12Key_idle main.colPins main.rowPins env.startKey prev.board (by decide)
      (by decide) fuel (releasedAt_held env.startKey n g1 g2)]

/-- Witness for C5 on the pins of `main`: a key pressed in passes 2 and 3 lets the loop leave
at pass 4; a key pressed from pass 2 on and never released keeps it polling. -/
theorem C5_start_key_gate_witness :
    (∃ b1, waitForSW12Key main.colPins main.rowPins (fun k => decide (k = 2 ∨ k = 3)) 10
      { level := fun _ => false, log := [] } = Run.done (4, b1)) ∧
    waitForSW12Key main.colPins main.rowPins (fun k => decide (2 ≤ k)) 50
      { level := fun _ => false, log := [] } = Run.looping :=
  ⟨(C5_start_key_gate main.colPins main.rowPins { level := fun _ => false, log := [] }
      (by decide) (by decide)).2.1 (fun k => decide (k = 2 ∨ k = 3)) 4 10 (by decide) (by decide)
      ⟨2, by decide, by decide⟩
      (by intro k hk
          interval_cases k <;> simp),
   (C5_start_key_gate main.colPins main.rowPins { level := fun _ => false, log := [] }
      (by decide) (by decide)).2.2.1 (fun k => decide (2 ≤ k)) 2 50
      (by intro k hk; simp; omega) (by intro k hk; simpa using hk)⟩

theorem mem_resetKeyStates (ks : KeyStates) (r : List KeyState) (c : KeyState)
    (hr : r ∈ main.resetKeyStates ks) (hc : c ∈ r) : c.isPressed = false := by
  unfold main.resetKeyStates at hr
  obtain ⟨r0, _, rfl⟩ := List.mem_map.1 hr
  obtain ⟨c0, _, rfl⟩ := List.mem_map.1 hc
  rfl

theorem foldlM_keyCount_le {α : Type} (f : ScanSt → α → Option ScanSt)
    (hf : ∀ s a s1, f s a = some s1 → s.keyCount ≤ s1.keyCount) (l : List α) :
    ∀ s s1, l.foldlM f s = some s1 → s.keyCount ≤ s1.keyCount := by
  induction l with
  | nil =>
    intro s s1 h
    simp only [List.foldlM_nil, Option.pure_def, Option.some.injEq] at h
    rw [h]
  | cons a rest ih =>
    intro s s1 h
    simp only [List.foldlM_cons, Option.bind_eq_bind] at h
    cases hfa : f s a with
    | none => rw [hfa] at h; cases h
    | some s2 =>
      rw [hfa] at h
      exact le_trans (hf s a s2 hfa) (ih s2 s1 h)

theorem scanCell_keyCount_le (rowPins : List Pin) (now : Time) (reading : Frame) (col : Nat)
    (s : ScanSt) (row : Nat) (s1 : ScanSt)
    (h : scanCell rowPins now reading col s row = some s1) : s.keyCount ≤ s1.keyCount := by
  unfold scanCell at h
  split at h
  · cases h
  · simp only at h
    split at h
    · split at h
      · cases h
      · split at h
        · split at h
          · cases h
          · split at h
            · cases h
            · injection h with h
              rw [← h]
              show s.keyCount ≤ s.keyCount + 1
              omega
        · injection h with h
          rw [← h]
    · split at h
      · cases h
      · split at h
        · split at h
          · cases h
          · split at h
            · cases h
            · split at h <;>
              · injection h with h
                rw [← h]
        · injection h with h
          rw [← h]

theorem scanColumn_keyCount_le (colPins rowPins : List Pin) (now : Time) (reading : Frame)
    (s : ScanSt) (col : Nat) (s1 : ScanSt)
    (h : scanColumn colPins rowPins now reading s col = some s1) : s.keyCount ≤ s1.keyCount := by
  unfold scanColumn at h
  exact foldlM_keyCount_le (scanCell rowPins now reading col)
    (fun s2 row s3 h3 => scanCell_keyCount_le rowPins now reading col s2 row s3 h3)
    (List.range rowPins.length)
    { s with board := (driveColumns colPins col s.board).sleep (1 * millisecond) } s1 h

theorem scanKeys_nonneg (colPins rowPins : List Pin) (ks : KeyStates) (now : Time)
    (f : Frame) (b : Board) (n : Int) (ks1 : KeyStates) (b1 : Board)
    (h : scanKeys colPins rowPins ks now f b = some (n, ks1, b1)) : 0 ≤ n := by
  unfold scanKeys at h
  cases hfold : (List.range colPins.length).foldlM (scanColumn colPins rowPins now f)
      { keyStates := ks, keyCount := 0, board := b } with
  | none => rw [hfold] at h; cases h
  | some st =>
    rw [hfold] at h
    simp only [Option.some.injEq, Prod.mk.injEq] at h
    rw [← h.1]
    exact foldlM_keyCount_le (scanColumn colPins rowPins now f)
      (fun s col s1 hs => scanColumn_keyCount_le colPins rowPins now f s col s1 hs)
      (List.range colPins.length) _ st hfold


theorem loopPasses_succ (env : Env) (ticks scans n : Nat) :
    loopPasses env ticks scans (n + 1) =
      (env.clock (ticks + 1), env.frames scans) :: loopPasses env (ticks + 3) (scans + 1) n := by
  unfold loopPasses
  rw [List.range_succ_eq_map, List.map_cons, List.map_map]
  congr 1
  apply List.map_congr_left
  intro i _
  simp only [Function.comp, Nat.succ_eq_add_one]
  rw [show ticks + 1 + 3 * (i + 1) = ticks + 3 + 1 + 3 * i by ring,
    show scans + (i + 1) = scans + 1 + i by ring]

theorem runBody_keyCount_le (env : Env) (s s1 : RunSt) (h : main.runBody env s = some s1) :
    s.keyCount ≤ s1.keyCount := by
  unfold main.runBody at h
  cases hk : scanKeys main.colPins main.rowPins s.keyStates (env.clock s.ticks)
      (env.frames s.scans) s.board with
  | none => rw [hk] at h; cases h
  | some r =>
    obtain ⟨n, ks, b⟩ := r
    rw [hk] at h
    injection h with h
    rw [← h]
    have := scanKeys_nonneg _ _ _ _ _ _ n ks b hk
    show s.keyCount ≤ s.keyCount + n
    omega

theorem runLoop_sum (env : Env) (fuel : Nat) :
    ∀ st st1 : RunSt, main.runLoop env fuel st = Run.done st1 →
      ∃ n counts, scanPasses main.colPins main.rowPins (loopPasses env st.ticks st.scans n)
          st.keyStates st.board = some (counts, st1.keyStates, st1.board) ∧
        counts.length = n ∧ st1.keyCount = st.keyCount + counts.sum ∧
        st.keyCount ≤ st1.keyCount := by
  induction fuel with
  | zero =>
    intro st st1 h
    cases h
  | succ fuel ih =>
    intro st st1 h
    unfold main.runLoop at h
    split at h
    · cases hb : main.runBody env { st with ticks := st.ticks + 1 } with
      | none => rw [hb] at h; cases h
      | some s2 =>
        rw [hb] at h
        simp only at h
        have hle := runBody_keyCount_le env _ s2 hb
        obtain ⟨n, counts, e1, e2, e3, e4⟩ := ih s2 st1 h
        unfold main.runBody at hb
        simp only at hb
        cases hk : scanKeys main.colPins main.rowPins st.keyStates (env.clock (st.ticks + 1))
            (env.frames st.scans) st.board with
        | none => rw [hk] at hb; cases hb
        | some r =>
          obtain ⟨c, ks, b⟩ := r
          rw [hk] at hb
          injection hb with hb
          subst hb
          refine ⟨n + 1, c :: counts, ?_, by simp [e2], ?_, le_trans hle e4⟩
          · rw [loopPasses_succ]
            simp only [scanPasses, hk]
            have e1b : scanPasses main.colPins main.rowPins
                (loopPasses env (st.ticks + 3) (st.scans + 1) n) ks b =
                some (counts, st1.keyStates, st1.board) := e1
            rw [e1b]
          · rw [e3, List.sum_cons]
            show st.keyCount + c + counts.sum = st.keyCount + (c + counts.sum)
            ring
    · injection h with h
      subst h
      exact ⟨0, [], rfl, rfl, by simp, le_refl _⟩

/-- C7 (P4, monotonic session counter).  Whenever `scanKeys` returns, the count it returns is
not negative, for every key state and readings.  Hence an iteration of the counting loop never
lowers `keyCount`, and when the loop ends `keyCount` is its value at the start of the loop plus
the sum of the counts returned by the `scanKeys` calls of the period; for a loop entered
through `main.enterRunning` it is exactly that sum. -/
theorem C7_monotonic_counter (env : Env) (fuel : Nat) :
    (∀ colPins rowPins ks now f b n ks1 b1,
      scanKeys colPins rowPins ks now f b = some (n, ks1, b1) → 0 ≤ n) ∧
    (∀ s s1, main.runBody env s = some s1 → s.keyCount ≤ s1.keyCount) ∧
    (∀ st st1, main.runLoop env fuel st = Run.done st1 →
      ∃ n counts, scanPasses main.colPins main.rowPins (loopPasses env st.ticks st.scans n)
          st.keyStates st.board = some (counts, st1.keyStates, st1.board) ∧
        counts.length = n ∧ st1.keyCount = st.keyCount + counts.sum ∧
        st.keyCount ≤ st1.keyCount) ∧
    (∀ prev b st1, main.runLoop env fuel (main.enterRunning env prev b) = Run.done st1 →
      ∃ n counts, scanPasses main.colPins main.rowPins (loopPasses env 1 0 n)
          (main.resetKeyStates prev.keyStates) b = some (counts, st1.keyStates, st1.board) ∧
        counts.length = n ∧ st1.keyCount = counts.sum) := by
  refine ⟨?_, ?_, runLoop_sum env fuel, ?_⟩
  · intro colPins rowPins ks now f b n ks1 b1 h
    exact scanKeys_nonneg colPins rowPins ks now f b n ks1 b1 h
  · intro s s1 h
    exact runBody_keyCount_le env s s1 h
  · intro prev b st1 h
    obtain ⟨n, counts, e1, e2, e3, _⟩ := runLoop_sum env fuel _ st1 h
    refine ⟨n, counts, e1, e2, ?_⟩
    rw [e3]
    show (0 : Int) + counts.sum = counts.sum
    ring

/-- Witness for C7: the clock advances two seconds per reading, so the window holds two
iterations; one key is pressed in the first, it is held and a second key is pressed in the
second.  The loop ends with `keyCount = 2`, the sum of the two returned counts, although the
round before had left 41. -/
theorem C7_monotonic_counter_witness :
    ∃ (st1 : RunSt) (counts : List Int), main.runLoop
        { startKey := fun _ => false
          clock := fun k => 2000000000 * (k : Int)
          frames := fun k i j => decide (j = 0 ∧ i ≤ k) }
        6
        (main.enterRunning
          { startKey := fun _ => false
            clock := fun k => 2000000000 * (k : Int)
            frames := fun k i j => decide (j = 0 ∧ i ≤ k) }
          { keyCount := 41, keyStates := main.initKeyStates,
            board := { level := fun _ => false, log := [] } }
          { level := fun _ => false, log := [] }) = Run.done st1 ∧
      st1.keyCount = 2 ∧ st1.scans = 2 ∧ counts.sum = 2 := by
  have h : ∃ st1, main.runLoop
        { startKey := fun _ => false
          clock := fun k => 2000000000 * (k : Int)
          frames := fun k i j => decide (j = 0 ∧ i ≤ k) }
        6
        (main.enterRunning
          { startKey := fun _ => false
            clock := fun k => 2000000000 * (k : Int)
            frames := fun k i j => decide (j = 0 ∧ i ≤ k) }
          { keyCount := 41, keyStates := main.initKeyStates,
            board := { level := fun _ => false, log := [] } }
          { level := fun _ => false, log := [] }) = Run.done st1 ∧
        st1.keyCount = 2 ∧ st1.scans = 2 :=
    ⟨_, rfl, rfl, rfl⟩
  obtain ⟨st1, h1, h2, h3⟩ := h
  obtain ⟨n, counts, _, _, e3⟩ := (C7_monotonic_counter _ 6).2.2.2 _ _ st1 h1
  exact ⟨st1, counts, h1, h2, h3, by rw [← e3]; exact h2⟩

theorem driveFrom_level_of_not_mem (col : Nat) (p : Pin) (l : List Pin) :
    ∀ (k : Nat) (b : Board), p ∉ l →
      ((l.enumFrom k).foldl (fun b ip => if ip.1 = col then b.high ip.2 else b.low ip.2) b).level p
        = b.level p := by
  induction l with
  | nil => intro k b _; rfl
  | cons a rest ih =>
    intro k b hp
    have hpa : p ≠ a := fun h => hp (h ▸ List.mem_cons_self _ _)
    have hpr : p ∉ rest := fun h => hp (List.mem_cons_of_mem _ h)
    simp only [List.enumFrom_cons, List.foldl_cons]
    rw [ih (k + 1) _ hpr]
    by_cases hk : k = col <;> simp [hk, Board.high, Board.low, hpa]

theorem driveFrom_level_of_mem (col : Nat) (l : List Pin) :
    ∀ (k : Nat) (b : Board), l.Nodup → ∀ (i : Nat) (hi : i < l.length),
      ((l.enumFrom k).foldl (fun b ip => if ip.1 = col then b.high ip.2 else b.low ip.2) b).level
        l[i] = decide (k + i = col) := by
  induction l with
  | nil => intro k b _ i hi; simp at hi
  | cons a rest ih =>
    intro k b hnd i hi
    have hnd2 := List.nodup_cons.1 hnd
    simp only [List.enumFrom_cons, List.foldl_cons]
    cases i with
    | zero =>
      simp only [List.getElem_cons_zero, Nat.add_zero]
      rw [driveFrom_level_of_not_mem col a rest (k + 1) _ hnd2.1]
      by_cases hk : k = col <;> simp [hk, Board.high, Board.low]
    | succ i =>
      simp only [List.getElem_cons_succ]
      rw [ih (k + 1) _ hnd2.2 i (by simpa using hi)]
      congr 1
      apply propext
      constructor <;> intro h <;> omega

theorem rowsBoard_level (rowPins : List Pin) (f : Frame) (col n : Nat) (b : Board) :
    (rowsBoard rowPins f col n b).level = b.level := by
  induction n with
  | zero => rfl
  | succ n ih =>
    simp only [rowsBoard, List.range_succ, List.foldl_append, List.foldl_cons, List.foldl_nil]
    exact ih

theorem columnBoard_level (colPins rowPins : List Pin) (f : Frame) (col : Nat) (b : Board) :
    (columnBoard colPins rowPins f col b).level = (driveColumns colPins col b).level := by
  unfold columnBoard
  rw [rowsBoard_level]
  rfl

theorem scanBoard_succ (colPins rowPins : List Pin) (f : Frame) (m : Nat) (b : Board) :
    scanBoard colPins rowPins f (m + 1) b =
      columnBoard colPins rowPins f m (scanBoard colPins rowPins f m b) := by
  simp [scanBoard, List.range_succ, List.foldl_append]

theorem scanBoard_level_of_not_mem (colPins rowPins : List Pin) (f : Frame) (p : Pin)
    (hp : p ∉ colPins) (m : Nat) (b : Board) :
    (scanBoard colPins rowPins f m b).level p = b.level p := by
  induction m with
  | zero => rfl
  | succ m ih =>
    rw [scanBoard_succ, columnBoard_level]
    unfold driveColumns List.enum
    rw [driveFrom_level_of_not_mem m p colPins 0 _ hp, ih]

theorem scanBoard_level_of_mem (colPins rowPins : List Pin) (f : Frame) (hnd : colPins.Nodup)
    (m : Nat) (b : Board) (i : Nat) (hi : i < colPins.length) :
    (scanBoard colPins rowPins f (m + 1) b).level colPins[i] = decide (i = m) := by
  rw [scanBoard_succ, columnBoard_level]
  unfold driveColumns List.enum
  rw [driveFrom_level_of_mem m colPins 0 _ hnd i hi]
  simp

/-- Counterexample to C9 as stated: after one pass over the idle 3 x 4 matrix with every
column Low at entry, the column lines are not all Low; the last one scanned, GPIO8, is High. -/
theorem C9_last_column_left_high :
    ∃ n ks1 b1, scanKeys main.colPins main.rowPins main.initKeyStates 0 noCell
        { level := fun _ => false, log := [] } = some (n, ks1, b1) ∧
      b1.level 8 = true ∧ ¬ (∀ p ∈ main.colPins, b1.level p = false) :=
  ⟨_, _, _, rfl, rfl, by decide⟩

/-- C9 amended (columns after a scan).  For distinct column pins, every initial assignment
of pin levels, every key state whose scanned cells exist and every readings, `scanKeys`
returns, and on return every column line but the last one scanned is Low, the last one
scanned is High, and pins that are not column lines are as they were. -/
theorem C9_columns_after_scan (colPins rowPins : List Pin) (ks : KeyStates) (now : Time)
    (f : Frame) (b : Board) (hnd : colPins.Nodup)
    (hks : InRange rowPins.length colPins.length ks) :
    ∃ n ks1 b1, scanKeys colPins rowPins ks now f b = some (n, ks1, b1) ∧
      (∀ (i : Nat) (hi : i < colPins.length),
        b1.level (colPins.get ⟨i, hi⟩) = decide (i + 1 = colPins.length)) ∧
      ∀ p, p ∉ colPins → b1.level p = b.level p := by
  refine ⟨_, _, _, scanKeys_eq colPins rowPins ks now f b hks, ?_, ?_⟩
  · intro i hi
    obtain ⟨m, hm⟩ : ∃ m, colPins.length = m + 1 := ⟨colPins.length - 1, by omega⟩
    have e : scanBoard colPins rowPins f colPins.length b =
        scanBoard colPins rowPins f (m + 1) b := by rw [hm]
    have h := scanBoard_level_of_mem colPins rowPins f hnd m b i hi
    simp only [List.get_eq_getElem]
    rw [e, h]
    congr 1
    apply propext
    constructor <;> intro h <;> omega
  · intro p hp
    exact scanBoard_level_of_not_mem colPins rowPins f p hp _ b

/-- Witness for C9 amended, on the pins of `main` with two columns High at entry. -/
theorem C9_columns_after_scan_witness :
    ∃ n ks1 b1, scanKeys main.colPins main.rowPins main.initKeyStates 0 noCell
        { level := fun p => decide (p = 5 ∨ p = 6), log := [] } = some (n, ks1, b1) ∧
      b1.level 5 = false ∧ b1.level 6 = false ∧ b1.level 7 = false ∧ b1.level 8 = true := by
  obtain ⟨n, ks1, b1, h1, h2, _⟩ :=
    C9_columns_after_scan main.colPins main.rowPins main.initKeyStates 0 noCell
      { level := fun p => decide (p = 5 ∨ p = 6), log := [] } (by decide) initKeyStates_inRange
  exact ⟨n, ks1, b1, h1, h2 0 (by decide), h2 1 (by decide), h2 2 (by decide),
    h2 3 (by decide)⟩


theorem Shaped_updCells (R C : Nat) (sel : Nat → Nat → Bool)
    (g : Nat → Nat → KeyState → KeyState) (ks : KeyStates) (h : Shaped R C ks) :
    Shaped R C (updCells sel g ks) := by
  constructor
  · simpa [updCells] using h.1
  · intro r hr
    obtain ⟨n, hn⟩ := List.mem_iff_getElem?.1 hr
    rw [getElem?_updCells] at hn
    cases hr0 : ks[n]? with
    | none => rw [hr0] at hn; cases hn
    | some r0 =>
      rw [hr0] at hn
      simp only [Option.map_some', Option.some.injEq] at hn
      rw [← hn, List.length_mapIdx]
      exact h.2 r0 (List.mem_iff_getElem?.2 ⟨n, hr0⟩)

theorem Shaped_resetKeyStates (R C : Nat) (ks : KeyStates) (h : Shaped R C ks) :
    Shaped R C (main.resetKeyStates ks) := by
  constructor
  · simpa [main.resetKeyStates] using h.1
  · intro r hr
    unfold main.resetKeyStates at hr
    obtain ⟨r0, hr0, rfl⟩ := List.mem_map.1 hr
    rw [List.length_map]
    exact h.2 r0 hr0

theorem Shaped_initKeyStates : Shaped ROWS COLS main.initKeyStates := by
  unfold Shaped
  decide

theorem runLoop_total (env : Env) (fuel : Nat) :
    ∀ st : RunSt, Shaped main.rowPins.length main.colPins.length st.keyStates →
      (∃ st1, main.runLoop env fuel st = Run.done st1 ∧
        Shaped main.rowPins.length main.colPins.length st1.keyStates) ∨
      main.runLoop env fuel st = Run.looping := by
  induction fuel with
  | zero => intro st _; right; rfl
  | succ fuel ih =>
    intro st hs
    unfold main.runLoop
    split
    · unfold main.runBody
      simp only
      rw [scanKeys_eq main.colPins main.rowPins st.keyStates _ _ _ hs.inRange]
      simp only
      exact ih _ (Shaped_updCells _ _ _ _ _ hs)
    · left
      exact ⟨_, rfl, hs⟩

/-- C10 (totality of the core).  When `keyStates` has at least `len(rowPins)` rows, each of at
least `len(colPins)` cells, `scanKeys` returns for every clock value, readings and board, and
it leaves a key state of the same kind, so any number of successive calls return.  The slices
of `main` are of that kind (3 row pins, 4 column pins, 3 rows of 4 cells), `colPins[3]` and
`rowPins[2]` exist, so `waitForSW12Key` never panics, and no round of the service loop
panics. -/
theorem C10_totality (colPins rowPins : List Pin) (ks : KeyStates)
    (hshape : Shaped rowPins.length colPins.length ks) :
    (∀ now f b, ∃ n ks1 b1, scanKeys colPins rowPins ks now f b = some (n, ks1, b1) ∧
      Shaped rowPins.length colPins.length ks1) ∧
    (∀ passes b, ∃ counts ks1 b1,
      scanPasses colPins rowPins passes ks b = some (counts, ks1, b1)) ∧
    (main.rowPins.length = ROWS ∧ main.colPins.length = COLS ∧
      Shaped ROWS COLS main.initKeyStates) ∧
    (∀ input fuel b, 3 < colPins.length → 2 < rowPins.length →
      waitForSW12Key colPins rowPins input fuel b ≠ Run.panicked) ∧
    (∀ input fuel b, waitForSW12Key main.colPins main.rowPins input fuel b ≠ Run.panicked) ∧
    (∀ env fuel prev, Shaped ROWS COLS prev.keyStates →
      main.round env fuel prev ≠ Run.panicked ∧
      ∀ st, main.round env fuel prev = Run.done st → Shaped ROWS COLS st.keyStates) := by
  have hwait : ∀ (cp rp : List Pin) (input : Nat → Bool) (fuel : Nat) (b : Board),
      3 < cp.length → 2 < rp.length →
      (∃ r, waitForSW12Key cp rp input fuel b = Run.done r) ∨
        waitForSW12Key cp rp input fuel b = Run.looping := by
    intro cp rp input fuel b h3 h2
    rcases waitForSW12Key_spec cp rp input b h3 h2 fuel with ⟨i, b1, e, _⟩ | ⟨e, _⟩
    · exact Or.inl ⟨_, e⟩
    · exact Or.inr e
  refine ⟨?_, ?_, ⟨rfl, rfl, Shaped_initKeyStates⟩, ?_, ?_, ?_⟩
  · intro now f b
    exact ⟨_, _, _, scanKeys_eq colPins rowPins ks now f b hshape.inRange,
      Shaped_updCells _ _ _ _ _ hshape⟩
  · intro passes b
    exact ⟨_, _, _, scanPasses_eq colPins rowPins passes ks b hshape.inRange⟩
  · intro input fuel b h3 h2
    rcases hwait colPins rowPins input fuel b h3 h2 with ⟨r, e⟩ | e <;> rw [e] <;> simp
  · intro input fuel b
    rcases hwait main.colPins main.rowPins input fuel b (by decide) (by decide) with
      ⟨r, e⟩ | e <;> rw [e] <;> simp
  · intro env fuel prev hprev
    unfold main.round
    rcases hwait main.colPins main.rowPins env.startKey fuel prev.board (by decide)
      (by decide) with ⟨⟨i, b⟩, e⟩ | e
    · rw [e]
      simp only
      have hs : Shaped main.rowPins.length main.colPins.length
          (main.enterRunning env prev b).keyStates :=
        Shaped_resetKeyStates _ _ _ hprev
      rcases runLoop_total env fuel _ hs with ⟨st1, e1, hs1⟩ | e1
      · rw [e1]
        simp only
        refine ⟨by simp, ?_⟩
        intro st hst
        injection hst with hst
        rw [← hst]
        exact hs1
      · rw [e1]
        simp
    · rw [e]
      simp

/-- Witness for C10: on the pins and the freshly allocated key states of `main`, a pass with
every cell active returns. -/
theorem C10_totality_witness :
    ∃ n ks1 b1, scanKeys main.colPins main.rowPins main.initKeyStates 1 (fun _ _ => true)
        { level := fun _ => false, log := [] } = some (n, ks1, b1) ∧
      Shaped main.rowPins.length main.colPins.length ks1 :=
  (C10_totality main.colPins main.rowPins main.initKeyStates Shaped_initKeyStates).1 1
    (fun _ _ => true) { level := fun _ => false, log := [] }

theorem runLoop_exit (env : Env) (fuel : Nat) :
    ∀ st st1 : RunSt, main.runLoop env fuel st = Run.done st1 →
      ∃ n, st1.scans = st.scans + n ∧ st1.ticks = st.ticks + 3 * n + 1 ∧
        st1.startTime = st.startTime ∧ st1.endTime = st.endTime ∧
        (∀ i, i < n → env.clock (st.ticks + 3 * i) < st.endTime) ∧
        st.endTime ≤ env.clock (st.ticks + 3 * n) := by
  induction fuel with
  | zero => intro st st1 h; cases h
  | succ fuel ih =>
    intro st st1 h
    unfold main.runLoop at h
    split at h
    · rename_i hcond
      have hlt : env.clock st.ticks < st.endTime := by
        simpa [Time.before] using hcond
      cases hb : main.runBody env { st with ticks := st.ticks + 1 } with
      | none => rw [hb] at h; cases h
      | some s2 =>
        rw [hb] at h
        simp only at h
        obtain ⟨n, a1, a2, a3, a4, a5, a6⟩ := ih s2 st1 h
        unfold main.runBody at hb
        simp only at hb
        cases hk : scanKeys main.colPins main.rowPins st.keyStates (env.clock (st.ticks + 1))
            (env.frames st.scans) st.board with
        | none => rw [hk] at hb; cases hb
        | some r =>
          obtain ⟨c, ks, b⟩ := r
          rw [hk] at hb
          injection hb with hb
          subst hb
          simp only at a1 a2 a3 a4 a5 a6
          refine ⟨n + 1, by omega, by omega, a3, a4, ?_, ?_⟩
          · intro i hi
            cases i with
            | zero => simpa using hlt
            | succ i =>
              have := a5 i (by omega)
              rw [show st.ticks + 3 * (i + 1) = st.ticks + 1 + 2 + 3 * i by ring]
              exact this
          · rw [show st.ticks + 3 * (n + 1) = st.ticks + 1 + 2 + 3 * n by ring]
            exact a6
    · rename_i hcond
      injection h with h
      subst h
      refine ⟨0, rfl, rfl, rfl, rfl, ?_, ?_⟩
      · intro i hi; omega
      · have : ¬ env.clock st.ticks < st.endTime := by
          simpa [Time.before] using hcond
        simpa using not_lt.1 this

theorem runLoop_returns (env : Env) (n : Nat) :
    ∀ (fuel : Nat) (st : RunSt),
      Shaped main.rowPins.length main.colPins.length st.keyStates →
      (∀ i, i < n → env.clock (st.ticks + 3 * i) < st.endTime) →
      st.endTime ≤ env.clock (st.ticks + 3 * n) → n < fuel →
      ∃ st1, main.runLoop env fuel st = Run.done st1 ∧ st1.scans = st.scans + n := by
  induction n with
  | zero =>
    intro fuel st _ _ hexit hfuel
    obtain ⟨fuel, rfl⟩ : ∃ f, fuel = f + 1 := ⟨fuel - 1, by omega⟩
    have hc : Time.before (env.clock st.ticks) st.endTime = false := by
      have : ¬ env.clock st.ticks < st.endTime := not_lt.2 (by simpa using hexit)
      simp [Time.before, this]
    unfold main.runLoop
    rw [hc]
    exact ⟨_, rfl, rfl⟩
  | succ n ih =>
    intro fuel st hs hbefore hexit hfuel
    obtain ⟨fuel, rfl⟩ : ∃ f, fuel = f + 1 := ⟨fuel - 1, by omega⟩
    have hc : Time.before (env.clock st.ticks) st.endTime = true := by
      have := hbefore 0 (Nat.succ_pos n)
      simpa [Time.before] using this
    unfold main.runLoop
    rw [hc]
    unfold main.runBody
    simp only [if_true]
    rw [scanKeys_eq main.colPins main.rowPins st.keyStates _ _ _ hs.inRange]
    simp only
    obtain ⟨st1, e1, e2⟩ := ih fuel
      { st with
        keyCount := st.keyCount +
          edgeCount main.rowPins.length main.colPins.length (env.frames st.scans) st.keyStates
        keyStates := applyFrame main.rowPins.length main.colPins.length
          (env.clock (st.ticks + 1)) (env.frames st.scans) st.keyStates
        board := scanBoard main.colPins main.rowPins (env.frames st.scans)
          main.colPins.length st.board
        ticks := st.ticks + 1 + 2
        scans := st.scans + 1 }
      (Shaped_updCells _ _ _ _ _ hs)
      (by intro i hi
          have := hbefore (i + 1) (by omega)
          rw [show st.ticks + 3 * (i + 1) = st.ticks + 1 + 2 + 3 * i by ring] at this
          exact this)
      (by rw [show st.ticks + 3 * (n + 1) = st.ticks + 1 + 2 + 3 * n by ring] at hexit
          exact hexit)
      (by omega)
    refine ⟨st1, e1, ?_⟩
    rw [e2]
    show st.scans + 1 + n = st.scans + (n + 1)
    omega


/-- Counterexample to C11 as stated: under `jumpEnv` the clock is non-decreasing, it reads 0
when `startTime` is taken and 20 s at the first test of the loop condition and ever after.
The loop exits at that first test without any scan pass; the measured length is 20 s, twice
the fixed duration, and it exceeds the fixed duration plus the time between any two
consecutive tests of the condition, which is zero under this clock. -/
theorem C11_overrun_without_pass :
    (∀ i j : Nat, i ≤ j → jumpEnv.clock i ≤ jumpEnv.clock j) ∧
    ∃ st1, main.runLoop jumpEnv 3
        (main.enterRunning jumpEnv
          { keyCount := 0, keyStates := main.initKeyStates,
            board := { level := fun _ => false, log := [] } }
          { level := fun _ => false, log := [] }) = Run.done st1 ∧
      st1.scans = 0 ∧ st1.ticks = 2 ∧ st1.startTime = jumpEnv.clock 0 ∧
      jumpEnv.clock (st1.ticks - 1) - st1.startTime = 2 * testDuration ∧
      ∀ i, testDuration + (jumpEnv.clock (1 + 3 * (i + 1)) - jumpEnv.clock (1 + 3 * i)) <
        jumpEnv.clock (st1.ticks - 1) - st1.startTime := by
  constructor
  · intro i j h
    show (if i = 0 then (0 : Int) else 20000000000) ≤ (if j = 0 then (0 : Int) else 20000000000)
    by_cases hi : i = 0
    · by_cases hj : j = 0 <;> simp [hi, hj]
    · have hj : j ≠ 0 := by omega
      simp [hi, hj]
  · refine ⟨_, rfl, rfl, rfl, rfl, by decide, ?_⟩
    intro i
    have h1 : jumpEnv.clock (1 + 3 * (i + 1)) = 20000000000 := by
      show (if 1 + 3 * (i + 1) = 0 then (0 : Int) else 20000000000) = 20000000000
      rw [if_neg (by omega)]
    have h2 : jumpEnv.clock (1 + 3 * i) = 20000000000 := by
      show (if 1 + 3 * i = 0 then (0 : Int) else 20000000000) = 20000000000
      rw [if_neg (by omega)]
    rw [h1, h2]
    decide

/-- C11 amended (P5, duration bound).  The clock is the non-decreasing sequence of the values
of successive `time.Now()` calls.  When the counting loop entered through `main.enterRunning`
ends after `n` passes: every pass was started by a test of the condition that read a value
strictly before `endTime`; the exit test, the first one not before `endTime`, read a value at
or after it; so the measured length (exit test minus `startTime`) is at least the fixed
duration of 10 s, every clock value read in the period lies between `startTime` and the exit
test, and, when at least one pass ran, the length is below the fixed duration plus the time
between the last two tests of the condition (the last pass with its display refresh).  Nothing
is promised about the overrun of a window whose first test is already at or after `endTime`.
Conversely the loop does return once a test reads a value at or after `endTime`. -/
theorem C11_duration_bound (env : Env) (hmono : ∀ i j : Nat, i ≤ j → env.clock i ≤ env.clock j)
    (prev : MainSt) (b : Board) :
    testDuration = 10000000000 ∧
    (∀ fuel st1, main.runLoop env fuel (main.enterRunning env prev b) = Run.done st1 →
      st1.ticks = 3 * st1.scans + 2 ∧
      (∀ i, i < st1.scans → env.clock (3 * i + 1) < env.clock 0 + testDuration) ∧
      env.clock 0 + testDuration ≤ env.clock (3 * st1.scans + 1) ∧
      testDuration ≤ env.clock (3 * st1.scans + 1) - env.clock 0 ∧
      (∀ k, k ≤ 3 * st1.scans + 1 →
        env.clock 0 ≤ env.clock k ∧ env.clock k ≤ env.clock (3 * st1.scans + 1)) ∧
      (∀ m, st1.scans = m + 1 →
        env.clock (3 * st1.scans + 1) - env.clock 0 <
          testDuration + (env.clock (3 * (m + 1) + 1) - env.clock (3 * m + 1)) ∧
        0 ≤ env.clock (3 * (m + 1) + 1) - env.clock (3 * m + 1))) ∧
    (∀ n fuel, Shaped ROWS COLS prev.keyStates →
      (∀ i, i < n → env.clock (3 * i + 1) < env.clock 0 + testDuration) →
      env.clock 0 + testDuration ≤ env.clock (3 * n + 1) → n < fuel →
      ∃ st1, main.runLoop env fuel (main.enterRunning env prev b) = Run.done st1 ∧
        st1.scans = n) := by
  refine ⟨by decide, ?_, ?_⟩
  · intro fuel st1 h
    obtain ⟨n, a1, a2, _, _, a5, a6⟩ := runLoop_exit env fuel _ st1 h
    have e1 : st1.scans = n := by rw [a1]; show 0 + n = n; omega
    have e2 : st1.ticks = 3 * n + 2 := by rw [a2]; show 1 + 3 * n + 1 = 3 * n + 2; omega
    have hbefore : ∀ i, i < n → env.clock (3 * i + 1) < env.clock 0 + testDuration := by
      intro i hi
      have := a5 i hi
      rw [show (main.enterRunning env prev b).ticks + 3 * i = 3 * i + 1 from by
        show 1 + 3 * i = 3 * i + 1; omega] at this
      exact this
    have hexit : env.clock 0 + testDuration ≤ env.clock (3 * n + 1) := by
      rw [show (main.enterRunning env prev b).ticks + 3 * n = 3 * n + 1 from by
        show 1 + 3 * n = 3 * n + 1; omega] at a6
      exact a6
    rw [e1]
    refine ⟨e2, hbefore, hexit, by linarith, ?_, ?_⟩
    · intro k hk
      exact ⟨hmono 0 k (Nat.zero_le k), hmono k _ hk⟩
    · intro m hm
      have h1 := hbefore m (by omega)
      have h2 := hmono (3 * m + 1) (3 * (m + 1) + 1) (by omega)
      subst hm
      constructor <;> linarith
  · intro n fuel hs hbefore hexit hfuel
    obtain ⟨st1, e1, e2⟩ := runLoop_returns env n fuel (main.enterRunning env prev b)
      (Shaped_resetKeyStates _ _ _ hs)
      (by intro i hi
          rw [show (main.enterRunning env prev b).ticks + 3 * i = 3 * i + 1 from by
            show 1 + 3 * i = 3 * i + 1; omega]
          exact hbefore i hi)
      (by rw [show (main.enterRunning env prev b).ticks + 3 * n = 3 * n + 1 from by
            show 1 + 3 * n = 3 * n + 1; omega]
          exact hexit)
      hfuel
    refine ⟨st1, e1, ?_⟩
    rw [e2]
    show 0 + n = n
    omega

/-- Witness for C11 amended: the clock advances two seconds per reading; the window holds two
passes, the exit test reads 14 s, and the last two tests are 6 s apart. -/
theorem C11_duration_bound_witness :
    ∃ st1 : RunSt, main.runLoop
        { startKey := fun _ => false, clock := fun k => 2000000000 * (k : Int),
          frames := fun k i j => decide (j = 0 ∧ i ≤ k) }
        6
        (main.enterRunning
          { startKey := fun _ => false, clock := fun k => 2000000000 * (k : Int),
            frames := fun k i j => decide (j = 0 ∧ i ≤ k) }
          { keyCount := 41, keyStates := main.initKeyStates,
            board := { level := fun _ => false, log := [] } }
          { level := fun _ => false, log := [] }) = Run.done st1 ∧
      st1.scans = 2 ∧
      testDuration ≤ (2000000000 : Int) * ((3 * st1.scans + 1 : Nat) : Int) -
        2000000000 * ((0 : Nat) : Int) := by
  have h : ∃ st1 : RunSt, main.runLoop
        { startKey := fun _ => false, clock := fun k => 2000000000 * (k : Int),
          frames := fun k i j => decide (j = 0 ∧ i ≤ k) }
        6
        (main.enterRunning
          { startKey := fun _ => false, clock := fun k => 2000000000 * (k : Int),
            frames := fun k i j => decide (j = 0 ∧ i ≤ k) }
          { keyCount := 41, keyStates := main.initKeyStates,
            board := { level := fun _ => false, log := [] } }
          { level := fun _ => false, log := [] }) = Run.done st1 ∧ st1.scans = 2 :=
    ⟨_, rfl, rfl⟩
  obtain ⟨st1, h1, h2⟩ := h
  have hc := (C11_duration_bound
    { startKey := fun _ => false, clock := fun k => 2000000000 * (k : Int),
      frames := fun k i j => decide (j = 0 ∧ i ≤ k) }
    (by intro i j hij
        have : (i : Int) ≤ j := by exact_mod_cast hij
        show (2000000000 : Int) * i ≤ 2000000000 * j
        linarith)
    { keyCount := 41, keyStates := main.initKeyStates,
      board := { level := fun _ => false, log := [] } }
    { level := fun _ => false, log := [] }).2.1 6 st1 h1
  exact ⟨st1, h1, h2, hc.2.2.2.1⟩

theorem risingCells_eq_card (R C : Nat) (f : Frame) (ks : KeyStates) :
    risingCells R C (pressedAt ks) f = (freshCells R C f ks : Int) := by
  rw [risingCells_eq_sum]
  unfold freshCells
  rw [Finset.card_filter, Finset.sum_product]
  push_cast
  rfl

theorem freshCells_le (R C : Nat) (f : Frame) (ks : KeyStates) : freshCells R C f ks ≤ R * C := by
  unfold freshCells
  calc _ ≤ (Finset.range R ×ˢ Finset.range C).card := Finset.card_filter_le _ _
    _ = R * C := by rw [Finset.card_product, Finset.card_range, Finset.card_range]

/-- C12 (event count of one pass).  For every key state whose scanned cells exist and every
readings, `scanKeys` returns the number of cells that are active in the readings and not
pressed in the key state; held cells, falling edges and idle cells add nothing.  The count
lies between 0 and the number of cells, which is `ROWS * COLS = 12` for the matrix of `main`. -/
theorem C12_event_count (colPins rowPins : List Pin) (ks : KeyStates) (now : Time) (f : Frame)
    (b : Board) (hks : InRange rowPins.length colPins.length ks) :
    (∃ ks1 b1, scanKeys colPins rowPins ks now f b =
      some ((freshCells rowPins.length colPins.length f ks : Int), ks1, b1)) ∧
    (0 : Int) ≤ (freshCells rowPins.length colPins.length f ks : Int) ∧
    freshCells rowPins.length colPins.length f ks ≤ rowPins.length * colPins.length ∧
    main.rowPins.length * main.colPins.length = ROWS * COLS ∧ ROWS * COLS = 12 := by
  refine ⟨⟨applyFrame rowPins.length colPins.length now f ks,
    scanBoard colPins rowPins f colPins.length b, ?_⟩, Int.natCast_nonneg _,
    freshCells_le _ _ f ks, rfl, rfl⟩
  rw [scanKeys_eq colPins rowPins ks now f b hks, edgeCount_eq_risingCells _ _ _ _ hks,
    risingCells_eq_card]

/-- Witness for C12: one held cell, one falling edge, one rising edge and nine idle cells
give a count of 1. -/
theorem C12_event_count_witness :
    ∃ ks1 b1, scanKeys main.colPins main.rowPins
        [[⟨true, 1⟩, ⟨true, 2⟩, ⟨false, 0⟩, ⟨false, 0⟩],
         [⟨false, 0⟩, ⟨false, 0⟩, ⟨false, 0⟩, ⟨false, 0⟩],
         [⟨false, 0⟩, ⟨false, 0⟩, ⟨false, 0⟩, ⟨false, 0⟩]]
        9 (fun i j => decide ((i, j) = (0, 0) ∨ (i, j) = (2, 3)))
        { level := fun _ => false, log := [] } = some (1, ks1, b1) := by
  have h := (C12_event_count main.colPins main.rowPins
    [[⟨true, 1⟩, ⟨true, 2⟩, ⟨false, 0⟩, ⟨false, 0⟩],
     [⟨false, 0⟩, ⟨false, 0⟩, ⟨false, 0⟩, ⟨false, 0⟩],
     [⟨false, 0⟩, ⟨false, 0⟩, ⟨false, 0⟩, ⟨false, 0⟩]]
    9 (fun i j => decide ((i, j) = (0, 0) ∨ (i, j) = (2, 3)))
    { level := fun _ => false, log := [] }
    (by intro i hi j hj
        have hi3 : i < 3 := hi
        have hj4 : j < 4 := hj
        interval_cases i <;> interval_cases j <;> rfl)).1
  have h2 : freshCells main.rowPins.length main.colPins.length
      (fun i j => decide ((i, j) = (0, 0) ∨ (i, j) = (2, 3)))
      [[⟨true, 1⟩, ⟨true, 2⟩, ⟨false, 0⟩, ⟨false, 0⟩],
       [⟨false, 0⟩, ⟨false, 0⟩, ⟨false, 0⟩, ⟨false, 0⟩],
       [⟨false, 0⟩, ⟨false, 0⟩, ⟨false, 0⟩, ⟨false, 0⟩]] = 1 := by decide
  rw [h2] at h
  exact h

/-- C13 (state after one pass).  After `scanKeys`, every scanned cell has `isPressed` equal
to its reading, and `lastPress` equal to `now` when the cell was a rising edge (active and not
pressed before) and to its former value otherwise; cells outside the scanned range are as they
were. -/
theorem C13_state_after_pass (colPins rowPins : List Pin) (ks : KeyStates) (now : Time)
    (f : Frame) (b : Board) (hks : InRange rowPins.length colPins.length ks) :
    ∃ n ks1 b1, scanKeys colPins rowPins ks now f b = some (n, ks1, b1) ∧
      (∀ i j, i < rowPins.length → j < colPins.length →
        ∃ c c1, getCell ks i j = some c ∧ getCell ks1 i j = some c1 ∧
          c1.isPressed = f i j ∧
          c1.lastPress = if f i j = true ∧ c.isPressed = false then now else c.lastPress) ∧
      (∀ i j, ¬ (i < rowPins.length ∧ j < colPins.length) → getCell ks1 i j = getCell ks i j) := by
  refine ⟨_, _, _, scanKeys_eq colPins rowPins ks now f b hks, ?_, ?_⟩
  · intro i j hi hj
    obtain ⟨c, hc⟩ := Option.isSome_iff_exists.1 (hks i hi j hj)
    refine ⟨c, cellNext now (f i j) c, hc, ?_, ?_, ?_⟩
    · rw [getCell_applyFrame, hc]
      simp [hi, hj]
    · cases hf : f i j <;> cases hp : c.isPressed <;> simp [cellNext, hp]
    · cases hf : f i j <;> cases hp : c.isPressed <;> simp [cellNext, hp]
  · intro i j hij
    rw [getCell_applyFrame]
    have hsel : (decide (i < rowPins.length) && decide (j < colPins.length)) = false := by
      by_cases hi : i < rowPins.length
      · have hj : ¬ j < colPins.length := fun hj => hij ⟨hi, hj⟩
        simp [hj]
      · simp [hi]
    rw [hsel]
    cases getCell ks i j <;> rfl

/-- Witness for C13 on the matrix of `main`: a rising edge at (0, 0) takes the new timestamp,
a held key at (0, 1) keeps its old one. -/
theorem C13_state_after_pass_witness :
    ∃ n ks1 b1, scanKeys main.colPins main.rowPins
        [[⟨false, 1⟩, ⟨true, 2⟩, ⟨false, 0⟩, ⟨false, 0⟩],
         [⟨false, 0⟩, ⟨false, 0⟩, ⟨false, 0⟩, ⟨false, 0⟩],
         [⟨false, 0⟩, ⟨false, 0⟩, ⟨false, 0⟩, ⟨false, 0⟩]]
        9 (fun i j => decide (i = 0 ∧ j ≤ 1))
        { level := fun _ => false, log := [] } = some (n, ks1, b1) ∧
      getCell ks1 0 0 = some ⟨true, 9⟩ ∧ getCell ks1 0 1 = some ⟨true, 2⟩ := by
  obtain ⟨n, ks1, b1, h1, h2, _⟩ := C13_state_after_pass main.colPins main.rowPins
    [[⟨false, 1⟩, ⟨true, 2⟩, ⟨false, 0⟩, ⟨false, 0⟩],
     [⟨false, 0⟩, ⟨false, 0⟩, ⟨false, 0⟩, ⟨false, 0⟩],
     [⟨false, 0⟩, ⟨false, 0⟩, ⟨false, 0⟩, ⟨false, 0⟩]]
    9 (fun i j => decide (i = 0 ∧ j ≤ 1))
    { level := fun _ => false, log := [] }
    (by intro i hi j hj
        have hi3 : i < 3 := hi
        have hj4 : j < 4 := hj
        interval_cases i <;> interval_cases j <;> rfl)
  refine ⟨n, ks1, b1, h1, ?_, ?_⟩
  · obtain ⟨c, c1, e0, e1, e2, e3⟩ := h2 0 0 (by decide) (by decide)
    have hc : c = ⟨false, 1⟩ := by
      have : getCell [[(⟨false, 1⟩ : KeyState), ⟨true, 2⟩, ⟨false, 0⟩, ⟨false, 0⟩],
         [⟨false, 0⟩, ⟨false, 0⟩, ⟨false, 0⟩, ⟨false, 0⟩],
         [⟨false, 0⟩, ⟨false, 0⟩, ⟨false, 0⟩, ⟨false, 0⟩]] 0 0 = some ⟨false, 1⟩ := rfl
      rw [this] at e0
      exact (Option.some.inj e0).symm
    subst hc
    rw [e1]
    cases c1
    simp at e2 e3
    simp [e2, e3]
  · obtain ⟨c, c1, e0, e1, e2, e3⟩ := h2 0 1 (by decide) (by decide)
    have hc : c = ⟨true, 2⟩ := by
      have : getCell [[(⟨false, 1⟩ : KeyState), ⟨true, 2⟩, ⟨false, 0⟩, ⟨false, 0⟩],
         [⟨false, 0⟩, ⟨false, 0⟩, ⟨false, 0⟩, ⟨false, 0⟩],
         [⟨false, 0⟩, ⟨false, 0⟩, ⟨false, 0⟩, ⟨false, 0⟩]] 0 1 = some ⟨true, 2⟩ := rfl
      rw [this] at e0
      exact (Option.some.inj e0).symm
    subst hc
    rw [e1]
    cases c1
    simp at e2 e3
    simp [e2, e3]

theorem pressedAt_eq_of_flags (ks1 ks2 : KeyStates) (i j : Nat)
    (h : (getCell ks1 i j).map (fun c => c.isPressed) =
      (getCell ks2 i j).map (fun c => c.isPressed)) :
    pressedAt ks1 i j = pressedAt ks2 i j := by
  unfold pressedAt
  cases h1 : getCell ks1 i j <;> cases h2 : getCell ks2 i j <;> simp [h1, h2] at h ⊢
  exact h

theorem cellNext_isPressed (now : Time) (v : Bool) (c : KeyState) :
    (cellNext now v c).isPressed = if v then true else (if c.isPressed then false else c.isPressed) := by
  cases v <;> cases hp : c.isPressed <;> simp [cellNext, hp]

/-- C14 (inert debounce threshold).  Two key states with the same `isPressed` flags, whatever
their `lastPress` values, scanned with the same readings at any two clock values: both calls
return the same count and leave the same `isPressed` flags.  The comparison of the elapsed
time with 50 ms changes nothing. -/
theorem C14_inert_threshold (colPins rowPins : List Pin) (f : Frame) (ks1 ks2 : KeyStates)
    (now1 now2 : Time) (b1 b2 : Board)
    (h1 : InRange rowPins.length colPins.length ks1)
    (h2 : InRange rowPins.length colPins.length ks2)
    (hflags : ∀ i j, (getCell ks1 i j).map (fun c => c.isPressed) =
      (getCell ks2 i j).map (fun c => c.isPressed)) :
    ∃ n ka ba kb bb, scanKeys colPins rowPins ks1 now1 f b1 = some (n, ka, ba) ∧
      scanKeys colPins rowPins ks2 now2 f b2 = some (n, kb, bb) ∧
      ∀ i j, (getCell ka i j).map (fun c => c.isPressed) =
        (getCell kb i j).map (fun c => c.isPressed) := by
  refine ⟨edgeCount rowPins.length colPins.length f ks1,
    applyFrame rowPins.length colPins.length now1 f ks1,
    scanBoard colPins rowPins f colPins.length b1,
    applyFrame rowPins.length colPins.length now2 f ks2,
    scanBoard colPins rowPins f colPins.length b2,
    scanKeys_eq colPins rowPins ks1 now1 f b1 h1, ?_, ?_⟩
  · rw [scanKeys_eq colPins rowPins ks2 now2 f b2 h2, edgeCount_eq_risingCells _ _ _ _ h1,
      edgeCount_eq_risingCells _ _ _ _ h2,
      risingCells_congr _ _ (pressedAt ks1) (pressedAt ks2) f f
        (fun i _ j _ => pressedAt_eq_of_flags ks1 ks2 i j (hflags i j)) (fun _ _ _ _ => rfl)]
  · intro i j
    rw [getCell_applyFrame, getCell_applyFrame]
    have h := hflags i j
    cases e1 : getCell ks1 i j with
    | none =>
      cases e2 : getCell ks2 i j with
      | none => rfl
      | some c2 => rw [e1, e2] at h; cases h
    | some c1 =>
      cases e2 : getCell ks2 i j with
      | none => rw [e1, e2] at h; cases h
      | some c2 =>
        rw [e1, e2] at h
        simp only [Option.map_some', Option.some.injEq] at h ⊢
        by_cases hsel : (decide (i < rowPins.length) && decide (j < colPins.length)) = true
        · simp only [hsel, if_true, cellNext_isPressed, h]
        · simp only [hsel, Bool.false_eq_true, if_false, h]

/-- Witness for C14: the key at (0, 0) is released; in one state it was pressed 1 ms before
the scan, in the other a full second before. -/
theorem C14_inert_threshold_witness :
    ∃ n ka ba kb bb,
      scanKeys main.colPins main.rowPins
        [[⟨true, 4999000000⟩, ⟨false, 0⟩, ⟨false, 0⟩, ⟨false, 0⟩],
         [⟨false, 0⟩, ⟨false, 0⟩, ⟨false, 0⟩, ⟨false, 0⟩],
         [⟨false, 0⟩, ⟨false, 0⟩, ⟨false, 0⟩, ⟨false, 0⟩]]
        5000000000 noCell { level := fun _ => false, log := [] } = some (n, ka, ba) ∧
      scanKeys main.colPins main.rowPins
        [[⟨true, 4000000000⟩, ⟨false, 0⟩, ⟨false, 0⟩, ⟨false, 0⟩],
         [⟨false, 0⟩, ⟨false, 0⟩, ⟨false, 0⟩, ⟨false, 0⟩],
         [⟨false, 0⟩, ⟨false, 0⟩, ⟨false, 0⟩, ⟨false, 0⟩]]
        5000000000 noCell { level := fun _ => false, log := [] } = some (n, kb, bb) ∧
      ∀ i j, (getCell ka i j).map (fun c => c.isPressed) =
        (getCell kb i j).map (fun c => c.isPressed) :=
  C14_inert_threshold main.colPins main.rowPins noCell _ _ 5000000000 5000000000 _ _
    (by intro i hi j hj
        have hi3 : i < 3 := hi
        have hj4 : j < 4 := hj
        interval_cases i <;> interval_cases j <;> rfl)
    (by intro i hi j hj
        have hi3 : i < 3 := hi
        have hj4 : j < 4 := hj
        interval_cases i <;> interval_cases j <;> rfl)
    (by intro i j
        rcases Nat.lt_or_ge i 3 with hi | hi
        · rcases Nat.lt_or_ge j 4 with hj | hj
          · interval_cases i <;> interval_cases j <;> rfl
          · interval_cases i <;> simp [getCell, List.getElem?_eq_none, hj]
        · simp [getCell, List.getElem?_eq_none, hi])

theorem updCells_updCells (sel : Nat → Nat → Bool) (g1 g2 : Nat → Nat → KeyState → KeyState)
    (ks : KeyStates) :
    updCells sel g2 (updCells sel g1 ks) = updCells sel (fun i j c => g2 i j (g1 i j c)) ks := by
  apply List.ext_getElem?
  intro n
  rw [getElem?_updCells, getElem?_updCells, getElem?_updCells]
  cases ks[n]? with
  | none => rfl
  | some r =>
    simp only [Option.map_some', Option.some.injEq]
    apply List.ext_getElem?
    intro m
    simp only [List.getElem?_mapIdx]
    cases r[m]? with
    | none => rfl
    | some c =>
      simp only [Option.map_some', Option.some.injEq]
      cases sel n m <;> simp

theorem cellNext_cellNext (t1 t2 : Time) (v : Bool) (c : KeyState) :
    cellNext t2 v (cellNext t1 v c) = cellNext t1 v c := by
  cases v <;> cases hp : c.isPressed <;> simp [cellNext, hp]

theorem applyFrame_applyFrame (R C : Nat) (t1 t2 : Time) (f : Frame) (ks : KeyStates) :
    applyFrame R C t2 f (applyFrame R C t1 f ks) = applyFrame R C t1 f ks := by
  unfold applyFrame
  rw [updCells_updCells]
  congr 1
  funext i j c
  exact cellNext_cellNext t1 t2 (f i j) c

/-- C18 (idempotence on a repeated frame).  For every key state whose scanned cells exist,
every readings and every two clock values, a second `scanKeys` call on the same readings
returns 0 and leaves the key state, `isPressed` and `lastPress` of every cell, exactly as the
first call left it. -/
theorem C18_repeated_frame (colPins rowPins : List Pin) (ks : KeyStates) (f : Frame)
    (t1 t2 : Time) (b : Board) (hks : InRange rowPins.length colPins.length ks) :
    ∃ n ks1 b1 b2, scanKeys colPins rowPins ks t1 f b = some (n, ks1, b1) ∧
      scanKeys colPins rowPins ks1 t2 f b1 = some (0, ks1, b2) := by
  have hks1 := InRange_applyFrame _ _ rowPins.length colPins.length t1 f ks hks
  refine ⟨edgeCount rowPins.length colPins.length f ks,
    applyFrame rowPins.length colPins.length t1 f ks,
    scanBoard colPins rowPins f colPins.length b,
    scanBoard colPins rowPins f colPins.length (scanBoard colPins rowPins f colPins.length b),
    scanKeys_eq colPins rowPins ks t1 f b hks, ?_⟩
  rw [scanKeys_eq colPins rowPins _ t2 f _ hks1, applyFrame_applyFrame,
    edgeCount_eq_risingCells _ _ _ _ hks1,
    risingCells_congr _ _ _ f f f
      (fun i hi j hj => pressedAt_applyFrame _ _ t1 f ks hks i j hi hj) (fun _ _ _ _ => rfl),
    risingCells_self]

/-- Witness for C18: two passes over the matrix of `main` with the keys of column 0 active. -/
theorem C18_repeated_frame_witness :
    ∃ n ks1 b1 b2,
      scanKeys main.colPins main.rowPins main.initKeyStates 5 (fun _ j => decide (j = 0))
        { level := fun _ => false, log := [] } = some (n, ks1, b1) ∧
      scanKeys main.colPins main.rowPins ks1 8 (fun _ j => decide (j = 0)) b1 =
        some (0, ks1, b2) :=
  C18_repeated_frame main.colPins main.rowPins main.initKeyStates (fun _ j => decide (j = 0))
    5 8 { level := fun _ => false, log := [] } initKeyStates_inRange

theorem levelsAfter_append (lv : Pin → Bool) (a b : List PinEvent) :
    levelsAfter lv (a ++ b) = levelsAfter (levelsAfter lv a) b := by
  induction a generalizing lv with
  | nil => rfl
  | cons e rest ih => cases e <;> simp only [List.cons_append, levelsAfter, List.append_eq, ih]

theorem readsOf_append (a b : List PinEvent) : readsOf (a ++ b) = readsOf a ++ readsOf b := by
  induction a with
  | nil => rfl
  | cons e rest ih => cases e <;> simp [readsOf, ih]

theorem driveFold_eq (col : Nat) (l : List (Nat × Pin)) :
    ∀ b : Board,
      (l.foldl (fun b ip => if ip.1 = col then b.high ip.2 else b.low ip.2) b).log =
          b.log ++ l.map (driveEvent col) ∧
      (l.foldl (fun b ip => if ip.1 = col then b.high ip.2 else b.low ip.2) b).level =
          levelsAfter b.level (l.map (driveEvent col)) := by
  induction l with
  | nil => intro b; simp [levelsAfter]
  | cons ip rest ih =>
    intro b
    simp only [List.foldl_cons, List.map_cons]
    obtain ⟨h1, h2⟩ := ih (if ip.1 = col then b.high ip.2 else b.low ip.2)
    rw [h1, h2]
    by_cases hc : ip.1 = col
    · simp [hc, driveEvent, Board.high, levelsAfter]
    · simp [hc, driveEvent, Board.low, levelsAfter]

theorem driveColumns_log (colPins : List Pin) (col : Nat) (b : Board) :
    (driveColumns colPins col b).log = b.log ++ driveEvents colPins col :=
  (driveFold_eq col colPins.enum b).1

theorem driveColumns_level (colPins : List Pin) (col : Nat) (b : Board) :
    (driveColumns colPins col b).level = levelsAfter b.level (driveEvents colPins col) :=
  (driveFold_eq col colPins.enum b).2

theorem levelsAfter_driveEvents (colPins : List Pin) (hnd : colPins.Nodup) (col : Nat)
    (lv : Pin → Bool) (j : Nat) (hj : j < colPins.length) :
    levelsAfter lv (driveEvents colPins col) colPins[j] = decide (j = col) := by
  have h := driveColumns_level colPins col { level := lv, log := [] }
  have h2 := driveFrom_level_of_mem col colPins 0 { level := lv, log := [] } hnd j hj
  simp only [Nat.zero_add] at h2
  rw [← h2]
  exact (congrFun h colPins[j]).symm

theorem levelsAfter_readEvents (rowPins : List Pin) (f : Frame) (col n : Nat)
    (lv : Pin → Bool) : levelsAfter lv (readEvents rowPins f col n) = lv := by
  induction n with
  | zero => rfl
  | succ n ih =>
    simp only [readEvents, List.range_succ, List.map_append, List.map_cons, List.map_nil,
      levelsAfter_append]
    have ih2 : levelsAfter lv (List.map (fun row => PinEvent.get (rowPins.getD row 0) (f row col))
        (List.range n)) = lv := ih
    rw [ih2]
    rfl

theorem readsOf_driveEvents (colPins : List Pin) (col : Nat) :
    readsOf (driveEvents colPins col) = [] := by
  unfold driveEvents
  induction colPins.enum with
  | nil => rfl
  | cons ip rest ih =>
    simp only [List.map_cons]
    by_cases hc : ip.1 = col <;> simp [driveEvent, hc, readsOf, ih]

theorem readsOf_readEvents (rowPins : List Pin) (f : Frame) (col n : Nat) :
    readsOf (readEvents rowPins f col n) =
      (List.range n).map (fun row => (rowPins.getD row 0, f row col)) := by
  induction n with
  | zero => rfl
  | succ n ih =>
    simp only [readEvents, List.range_succ, List.map_append, List.map_cons, List.map_nil,
      readsOf_append]
    have ih2 : readsOf (List.map (fun row => PinEvent.get (rowPins.getD row 0) (f row col))
        (List.range n)) = (List.range n).map (fun row => (rowPins.getD row 0, f row col)) := ih
    rw [ih2]
    rfl

theorem rowsBoard_log (rowPins : List Pin) (f : Frame) (col n : Nat) (b : Board) :
    (rowsBoard rowPins f col n b).log = b.log ++ readEvents rowPins f col n := by
  induction n with
  | zero => simp [rowsBoard, readEvents]
  | succ n ih =>
    have e : rowsBoard rowPins f col (n + 1) b =
        (rowsBoard rowPins f col n b).get (rowPins.getD n 0) (f n col) := by
      simp [rowsBoard, List.range_succ, List.foldl_append]
    rw [e]
    simp only [Board.get, ih, readEvents, List.range_succ, List.map_append, List.map_cons,
      List.map_nil, List.append_assoc]

theorem columnBoard_log (colPins rowPins : List Pin) (f : Frame) (col : Nat) (b : Board) :
    (columnBoard colPins rowPins f col b).log = b.log ++ columnEvents colPins rowPins f col := by
  unfold columnBoard columnEvents
  rw [rowsBoard_log]
  simp only [Board.sleep, driveColumns_log, List.append_assoc, List.singleton_append]

theorem scanEvents_succ (colPins rowPins : List Pin) (f : Frame) (m : Nat) :
    scanEvents colPins rowPins f (m + 1) =
      scanEvents colPins rowPins f m ++ columnEvents colPins rowPins f m := by
  simp [scanEvents, List.range_succ]

theorem scanBoard_log (colPins rowPins : List Pin) (f : Frame) (m : Nat) (b : Board) :
    (scanBoard colPins rowPins f m b).log = b.log ++ scanEvents colPins rowPins f m := by
  induction m with
  | zero => simp [scanBoard, scanEvents]
  | succ m ih =>
    rw [scanBoard_succ, columnBoard_log, ih, scanEvents_succ, List.append_assoc]

theorem levelsAfter_columnEvents (colPins rowPins : List Pin) (f : Frame) (col : Nat)
    (lv : Pin → Bool) :
    levelsAfter lv (columnEvents colPins rowPins f col) =
      levelsAfter lv (driveEvents colPins col) := by
  unfold columnEvents
  rw [levelsAfter_append]
  simp only [levelsAfter]
  rw [levelsAfter_readEvents]

theorem scanBoard_level_replay (colPins rowPins : List Pin) (f : Frame) (m : Nat) (b : Board) :
    (scanBoard colPins rowPins f m b).level =
      levelsAfter b.level (scanEvents colPins rowPins f m) := by
  induction m with
  | zero => rfl
  | succ m ih =>
    rw [scanBoard_succ, columnBoard_level, driveColumns_level, ih, scanEvents_succ,
      levelsAfter_append, levelsAfter_columnEvents]


theorem scanEvents_split (colPins rowPins : List Pin) (f : Frame) (col : Nat) :
    ∀ m, col < m → ∃ post, scanEvents colPins rowPins f m =
      scanEvents colPins rowPins f col ++ (columnEvents colPins rowPins f col ++ post) := by
  intro m
  induction m with
  | zero => intro h; omega
  | succ m ih =>
    intro h
    rw [scanEvents_succ]
    by_cases hm : col < m
    · obtain ⟨post, hp⟩ := ih hm
      exact ⟨post ++ columnEvents colPins rowPins f m, by rw [hp]; simp⟩
    · have e : col = m := by omega
      subst e
      exact ⟨[], by simp⟩

theorem readEvents_split (rowPins : List Pin) (f : Frame) (col row : Nat) :
    ∀ n, row < n → ∃ post, readEvents rowPins f col n =
      readEvents rowPins f col row ++
        (PinEvent.get (rowPins.getD row 0) (f row col) :: post) := by
  intro n
  induction n with
  | zero => intro h; omega
  | succ n ih =>
    intro h
    have e : readEvents rowPins f col (n + 1) =
        readEvents rowPins f col n ++ [PinEvent.get (rowPins.getD n 0) (f n col)] := by
      simp [readEvents, List.range_succ]
    rw [e]
    by_cases hn : row < n
    · obtain ⟨post, hp⟩ := ih hn
      exact ⟨post ++ [PinEvent.get (rowPins.getD n 0) (f n col)], by rw [hp]; simp⟩
    · have e2 : row = n := by omega
      subst e2
      exact ⟨[], rfl⟩

theorem readsOf_readEvents_length (rowPins : List Pin) (f : Frame) (col n : Nat) :
    (readsOf (readEvents rowPins f col n)).length = n := by
  rw [readsOf_readEvents]
  simp

theorem readsOf_columnEvents_length (colPins rowPins : List Pin) (f : Frame) (col : Nat) :
    (readsOf (columnEvents colPins rowPins f col)).length = rowPins.length := by
  unfold columnEvents
  rw [readsOf_append, readsOf_driveEvents]
  simp only [readsOf, List.nil_append]
  exact readsOf_readEvents_length rowPins f col rowPins.length

theorem readsOf_scanEvents_length (colPins rowPins : List Pin) (f : Frame) (m : Nat) :
    (readsOf (scanEvents colPins rowPins f m)).length = m * rowPins.length := by
  induction m with
  | zero => simp [scanEvents, readsOf]
  | succ m ih =>
    rw [scanEvents_succ, readsOf_append, List.length_append, ih, readsOf_columnEvents_length]
    ring

/-- C15 (scan sweep order and one-hot drive).  For distinct column pins, `scanKeys` appends
to the log of the board the events of the columns in ascending order: the drive events of the
column, the settle delay, and the reads of the rows in ascending order.  The pass holds one
read per cell, `len(colPins) * len(rowPins)` in all, the read of cell `(row, col)` being the
one at position `col * len(rowPins) + row`; and replaying the events up to that read, from
whatever levels the columns had at entry, leaves column `col` High and every other column
Low. -/
theorem C15_sweep_order (colPins rowPins : List Pin) (ks : KeyStates) (now : Time) (f : Frame)
    (b : Board) (hnd : colPins.Nodup) (hks : InRange rowPins.length colPins.length ks) :
    ∃ n ks1 b1, scanKeys colPins rowPins ks now f b = some (n, ks1, b1) ∧
      b1.log = b.log ++ scanEvents colPins rowPins f colPins.length ∧
      (readsOf (scanEvents colPins rowPins f colPins.length)).length =
        colPins.length * rowPins.length ∧
      ∀ (col row : Nat) (_ : col < colPins.length) (hrow : row < rowPins.length),
        ∃ pre post,
          scanEvents colPins rowPins f colPins.length =
            pre ++ (PinEvent.get (rowPins.get ⟨row, hrow⟩) (f row col) :: post) ∧
          (readsOf pre).length = col * rowPins.length + row ∧
          ∀ (j : Nat) (hj : j < colPins.length),
            levelsAfter b.level pre (colPins.get ⟨j, hj⟩) = decide (j = col) := by
  refine ⟨_, _, _, scanKeys_eq colPins rowPins ks now f b hks, scanBoard_log _ _ _ _ _,
    readsOf_scanEvents_length _ _ _ _, ?_⟩
  intro col row hcol hrow
  obtain ⟨post1, h1⟩ := scanEvents_split colPins rowPins f col colPins.length hcol
  obtain ⟨post2, h2⟩ := readEvents_split rowPins f col row rowPins.length hrow
  have hget : rowPins.getD row 0 = rowPins.get ⟨row, hrow⟩ := by
    simp [List.getD_eq_getElem?_getD, List.getElem?_eq_getElem hrow]
  refine ⟨scanEvents colPins rowPins f col ++ (driveEvents colPins col ++
      (PinEvent.sleep (1 * millisecond) :: readEvents rowPins f col row)),
    post2 ++ post1, ?_, ?_, ?_⟩
  · rw [h1]
    unfold columnEvents
    rw [h2, hget]
    simp only [List.append_assoc, List.cons_append]
  · rw [readsOf_append, readsOf_append, readsOf_driveEvents, List.length_append,
      readsOf_scanEvents_length]
    simp only [readsOf, List.nil_append]
    rw [readsOf_readEvents_length]
  · intro j hj
    rw [levelsAfter_append, levelsAfter_append]
    simp only [levelsAfter]
    rw [levelsAfter_readEvents]
    simp only [List.get_eq_getElem]
    exact levelsAfter_driveEvents colPins hnd col _ j hj

/-- Witness for C15 on the pins of `main`, entered with two columns High: the events of one
pass over the idle matrix. -/
theorem C15_sweep_order_witness :
    ∃ n ks1 b1, scanKeys main.colPins main.rowPins main.initKeyStates 0 noCell
        { level := fun p => decide (p = 5 ∨ p = 6), log := [] } = some (n, ks1, b1) ∧
      b1.log = scanEvents main.colPins main.rowPins noCell 4 ∧
      (readsOf b1.log).length = 12 := by
  obtain ⟨n, ks1, b1, h1, h2, h3, _⟩ :=
    C15_sweep_order main.colPins main.rowPins main.initKeyStates 0 noCell
      { level := fun p => decide (p = 5 ∨ p = 6), log := [] } (by decide) initKeyStates_inRange
  refine ⟨n, ks1, b1, h1, ?_, ?_⟩
  · rw [h2]; rfl
  · rw [h2]; exact h3

theorem specScan_rows (rowPins : List Pin) (reading : Frame) (col : Nat) (fr : Frame)
    (b : Board) (n : Nat) :
    (List.range n).foldl
        (fun (acc2 : Frame × Board) row =>
          (recordCell acc2.1 row col (reading row col),
            acc2.2.get (rowPins.getD row 0) (reading row col)))
        (fr, b) =
      (fun i j => if decide (j = col) && decide (i < n) then reading i j else fr i j,
        rowsBoard rowPins reading col n b) := by
  induction n with
  | zero =>
    simp [rowsBoard]
  | succ n ih =>
    rw [List.range_succ, List.foldl_append, ih]
    simp only [List.foldl_cons, List.foldl_nil, Prod.mk.injEq]
    constructor
    · funext i j
      unfold recordCell
      by_cases hj : j = col
      · by_cases hi : i = n
        · simp [hj, hi]
        · have e : (i < n + 1) ↔ (i < n) := by omega
          simp [hj, hi, e]
      · simp [hj]
    · simp [rowsBoard, List.range_succ, List.foldl_append]

theorem specScan_cols (colPins rowPins : List Pin) (reading : Frame) (b : Board) (m : Nat) :
    (List.range m).foldl
        (fun (acc : Frame × Board) col =>
          (List.range rowPins.length).foldl
            (fun (acc2 : Frame × Board) row =>
              (recordCell acc2.1 row col (reading row col),
                acc2.2.get (rowPins.getD row 0) (reading row col)))
            (acc.1, (driveColumns colPins col acc.2).sleep (1 * millisecond)))
        (noCell, b) =
      (fun i j => if decide (j < m) && decide (i < rowPins.length) then reading i j else false,
        scanBoard colPins rowPins reading m b) := by
  induction m with
  | zero =>
    simp only [List.range_zero, List.foldl_nil, scanBoard, Prod.mk.injEq, and_true]
    funext i j
    simp [noCell]
  | succ m ih =>
    rw [List.range_succ, List.foldl_append, ih]
    simp only [List.foldl_cons, List.foldl_nil]
    rw [specScan_rows]
    simp only [Prod.mk.injEq]
    constructor
    · funext i j
      by_cases hj : j = m
      · simp [hj]
      · have e : (j < m + 1) ↔ (j < m) := by omega
        simp [hj, e]
    · rw [scanBoard_succ]
      rfl

theorem specScan_eq (colPins rowPins : List Pin) (reading : Frame) (b : Board) :
    specScan colPins rowPins reading b =
      (fun i j => if decide (j < colPins.length) && decide (i < rowPins.length)
          then reading i j else false,
        scanBoard colPins rowPins reading colPins.length b) :=
  specScan_cols colPins rowPins reading b colPins.length

theorem specRule_fst (v : Bool) (now : Time) (c : KeyState) :
    (specRule v now c).1 = cellNext now v c := by
  cases v <;> cases hp : c.isPressed <;> simp [specRule, cellNext, hp]

theorem specRule_snd (v : Bool) (now : Time) (c : KeyState) :
    (specRule v now c).2 = cellEdge v c := by
  cases v <;> cases hp : c.isPressed <;> simp [specRule, cellEdge, hp]

theorem specApply_eq (R C : Nat) (frame reading : Frame) (now : Time) (ks : KeyStates)
    (h : ∀ i j, i < R → j < C → frame i j = reading i j) :
    specApply R C frame now ks = (edgeCount R C reading ks, applyFrame R C now reading ks) := by
  unfold specApply
  simp only [Prod.mk.injEq]
  constructor
  · unfold edgeCount
    rw [Finset.sum_comm]
    apply Finset.sum_congr rfl
    intro j hj
    apply Finset.sum_congr rfl
    intro i hi
    rw [h i j (Finset.mem_range.1 hi) (Finset.mem_range.1 hj)]
    unfold edgeAt
    cases getCell ks i j with
    | none => rfl
    | some c => exact specRule_snd _ _ _
  · unfold applyFrame updCells
    congr 1
    funext i r
    congr 1
    funext j c
    by_cases hi : i < R <;> by_cases hj : j < C <;> simp [hi, hj]
    rw [specRule_fst, h i j hi hj]

/-- C16 (scan-then-apply equivalence).  For every key state whose scanned cells exist, every
clock value and readings, `scanKeys` returns what is obtained by first collecting the whole
ScanFrame with `specScan`, which makes the same pin operations and touches no key state, and
then applying the per-cell rule to that frame with `specApply`: same count, same key state,
same board.  The board (levels and sequence of pin operations) is the same for every key
state and clock value. -/
theorem C16_scan_then_apply (colPins rowPins : List Pin) (ks : KeyStates) (now : Time)
    (reading : Frame) (b : Board) (hks : InRange rowPins.length colPins.length ks) :
    scanKeys colPins rowPins ks now reading b =
      some ((specApply rowPins.length colPins.length
              (specScan colPins rowPins reading b).1 now ks).1,
            (specApply rowPins.length colPins.length
              (specScan colPins rowPins reading b).1 now ks).2,
            (specScan colPins rowPins reading b).2) ∧
    ∀ ks2 now2, InRange rowPins.length colPins.length ks2 →
      ∃ n2 k2, scanKeys colPins rowPins ks2 now2 reading b =
        some (n2, k2, (specScan colPins rowPins reading b).2) := by
  have hfr : ∀ i j, i < rowPins.length → j < colPins.length →
      (specScan colPins rowPins reading b).1 i j = reading i j := by
    intro i j hi hj
    rw [specScan_eq]
    simp [hi, hj]
  have hb : (specScan colPins rowPins reading b).2 =
      scanBoard colPins rowPins reading colPins.length b := by
    rw [specScan_eq]
  constructor
  · rw [specApply_eq _ _ _ reading now ks hfr, hb]
    exact scanKeys_eq colPins rowPins ks now reading b hks
  · intro ks2 now2 h2
    rw [hb]
    exact ⟨_, _, scanKeys_eq colPins rowPins ks2 now2 reading b h2⟩

/-- Witness for C16 on the matrix of `main` with two keys down, one of them held. -/
theorem C16_scan_then_apply_witness :
    scanKeys main.colPins main.rowPins
        [[⟨true, 1⟩, ⟨false, 0⟩, ⟨false, 0⟩, ⟨false, 0⟩],
         [⟨false, 0⟩, ⟨false, 0⟩, ⟨false, 0⟩, ⟨false, 0⟩],
         [⟨false, 0⟩, ⟨false, 0⟩, ⟨false, 0⟩, ⟨false, 0⟩]]
        9 (fun i j => decide (i = 0 ∧ j ≤ 1)) { level := fun _ => false, log := [] } =
      some ((specApply 3 4
              (specScan main.colPins main.rowPins (fun i j => decide (i = 0 ∧ j ≤ 1))
                { level := fun _ => false, log := [] }).1 9
              [[⟨true, 1⟩, ⟨false, 0⟩, ⟨false, 0⟩, ⟨false, 0⟩],
               [⟨false, 0⟩, ⟨false, 0⟩, ⟨false, 0⟩, ⟨false, 0⟩],
               [⟨false, 0⟩, ⟨false, 0⟩, ⟨false, 0⟩, ⟨false, 0⟩]]).1,
            (specApply 3 4
              (specScan main.colPins main.rowPins (fun i j => decide (i = 0 ∧ j ≤ 1))
                { level := fun _ => false, log := [] }).1 9
              [[⟨true, 1⟩, ⟨false, 0⟩, ⟨false, 0⟩, ⟨false, 0⟩],
               [⟨false, 0⟩, ⟨false, 0⟩, ⟨false, 0⟩, ⟨false, 0⟩],
               [⟨false, 0⟩, ⟨false, 0⟩, ⟨false, 0⟩, ⟨false, 0⟩]]).2,
            (specScan main.colPins main.rowPins (fun i j => decide (i = 0 ∧ j ≤ 1))
              { level := fun _ => false, log := [] }).2) :=
  (C16_scan_then_apply main.colPins main.rowPins
    [[⟨true, 1⟩, ⟨false, 0⟩, ⟨false, 0⟩, ⟨false, 0⟩],
     [⟨false, 0⟩, ⟨false, 0⟩, ⟨false, 0⟩, ⟨false, 0⟩],
     [⟨false, 0⟩, ⟨false, 0⟩, ⟨false, 0⟩, ⟨false, 0⟩]]
    9 (fun i j => decide (i = 0 ∧ j ≤ 1)) { level := fun _ => false, log := [] }
    (by intro i hi j hj
        have hi3 : i < 3 := hi
        have hj4 : j < 4 := hj
        interval_cases i <;> interval_cases j <;> rfl)).1

theorem levelsAfter_startCell (c3 r2 : Pin) (evs : List PinEvent) :
    ∀ lv : Pin → Bool, evs.all (isStartCellEvent c3 r2) = true →
      ∀ p, p ≠ c3 → levelsAfter lv evs p = lv p := by
  induction evs with
  | nil => intro lv _ p _; rfl
  | cons e rest ih =>
    intro lv h p hp
    simp only [List.all_cons, Bool.and_eq_true] at h
    cases e with
    | high q =>
      have hq : q = c3 := by simpa [isStartCellEvent] using h.1
      simp only [levelsAfter]
      rw [ih _ h.2 p hp, hq]
      simp [hp]
    | low q =>
      have hq : q = c3 := by simpa [isStartCellEvent] using h.1
      simp only [levelsAfter]
      rw [ih _ h.2 p hp, hq]
      simp [hp]
    | sleep d =>
      simp only [levelsAfter]
      exact ih _ h.2 p hp
    | get q v =>
      simp only [levelsAfter]
      exact ih _ h.2 p hp

theorem pollOnce_events (colPins rowPins : List Pin) (h3 : 3 < colPins.length)
    (h2 : 2 < rowPins.length) (v : Bool) (st : PollSt) :
    ∃ flag st1 tail, pollOnce colPins rowPins v st = some (flag, st1) ∧
      st1.board.log = st.board.log ++
        (PinEvent.high colPins[3] :: PinEvent.sleep (1 * millisecond) ::
          PinEvent.get rowPins[2] v :: tail) ∧
      st1.board.level = levelsAfter st.board.level
        (PinEvent.high colPins[3] :: PinEvent.sleep (1 * millisecond) ::
          PinEvent.get rowPins[2] v :: tail) ∧
      (tail = [] ∨ tail = [PinEvent.low colPins[3], PinEvent.sleep (10 * millisecond)]) := by
  have hc : colPins[3]? = some colPins[3] := List.getElem?_eq_getElem h3
  have hr : rowPins[2]? = some rowPins[2] := List.getElem?_eq_getElem h2
  unfold pollOnce
  simp only [hc, hr]
  cases v with
  | true =>
    refine ⟨false, _, [PinEvent.low colPins[3], PinEvent.sleep (10 * millisecond)], rfl,
      ?_, ?_, Or.inr rfl⟩
    · simp [Board.high, Board.low, Board.sleep, Board.get]
    · simp [Board.high, Board.low, Board.sleep, Board.get, levelsAfter]
  | false =>
    cases hw : st.wasPressed with
    | true =>
      refine ⟨true,
        { wasPressed := st.wasPressed
          board := (Board.get ((st.board.high colPins[3]).sleep (1 * millisecond))
            rowPins[2] false)
          poll := st.poll },
        [], by simp [hw], ?_, ?_, Or.inl rfl⟩
      · simp [Board.high, Board.low, Board.sleep, Board.get]
      · simp [Board.high, Board.low, Board.sleep, Board.get, levelsAfter]
    | false =>
      refine ⟨false,
        { wasPressed := st.wasPressed
          board := (Board.sleep (Board.low (Board.get
            ((st.board.high colPins[3]).sleep (1 * millisecond)) rowPins[2] false)
            colPins[3]) (10 * millisecond))
          poll := st.poll + 1 },
        [PinEvent.low colPins[3], PinEvent.sleep (10 * millisecond)],
        by simp [hw], ?_, ?_, Or.inr rfl⟩
      · simp [Board.high, Board.low, Board.sleep, Board.get]
      · simp [Board.high, Board.low, Board.sleep, Board.get, levelsAfter]

theorem pollOnce_startCell (colPins rowPins : List Pin) (h3 : 3 < colPins.length)
    (h2 : 2 < rowPins.length) (v : Bool) (st : PollSt) :
    ∃ flag st1 evs, pollOnce colPins rowPins v st = some (flag, st1) ∧
      st1.board.log = st.board.log ++ evs ∧
      st1.board.level = levelsAfter st.board.level evs ∧
      evs.all (isStartCellEvent colPins[3] rowPins[2]) = true := by
  obtain ⟨flag, st1, tail, e1, e2, e3, e4⟩ := pollOnce_events colPins rowPins h3 h2 v st
  refine ⟨flag, st1, _, e1, e2, e3, ?_⟩
  rcases e4 with rfl | rfl <;> simp [isStartCellEvent]

theorem pollLoop_startCell (colPins rowPins : List Pin) (h3 : 3 < colPins.length)
    (h2 : 2 < rowPins.length) (input : Nat → Bool) (fuel : Nat) :
    ∀ st st1, pollLoop colPins rowPins input fuel st = Run.done st1 →
      ∃ evs, st1.board.log = st.board.log ++ evs ∧
        st1.board.level = levelsAfter st.board.level evs ∧
        evs.all (isStartCellEvent colPins[3] rowPins[2]) = true := by
  induction fuel with
  | zero => intro st st1 h; cases h
  | succ fuel ih =>
    intro st st1 h
    obtain ⟨flag, s2, evs, e1, e2, e3, e4⟩ :=
      pollOnce_startCell colPins rowPins h3 h2 (input st.poll) st
    unfold pollLoop at h
    rw [e1] at h
    cases flag with
    | true =>
      simp only at h
      injection h with h
      subst h
      exact ⟨evs, e2, e3, e4⟩
    | false =>
      simp only at h
      obtain ⟨evs2, f2, f3, f4⟩ := ih s2 st1 h
      refine ⟨evs ++ evs2, ?_, ?_, ?_⟩
      · rw [f2, e2, List.append_assoc]
      · rw [f3, e3, levelsAfter_append]
      · rw [List.all_append, e4, f4]
        rfl

theorem waitForSW12Key_startCell (colPins rowPins : List Pin) (h3 : 3 < colPins.length)
    (h2 : 2 < rowPins.length) (input : Nat → Bool) (fuel : Nat) (b : Board) (i : Nat)
    (b1 : Board) (h : waitForSW12Key colPins rowPins input fuel b = Run.done (i, b1)) :
    ∃ evs, b1.log = b.log ++ evs ∧ b1.level = levelsAfter b.level evs ∧
      evs.all (isStartCellEvent colPins[3] rowPins[2]) = true := by
  unfold waitForSW12Key at h
  cases hp : pollLoop colPins rowPins input fuel { wasPressed := false, board := b, poll := 0 } with
  | done st =>
    rw [hp] at h
    simp only at h
    injection h with h
    injection h with _ hb
    obtain ⟨evs, f2, f3, f4⟩ := pollLoop_startCell colPins rowPins h3 h2 input fuel _ st hp
    refine ⟨evs ++ [PinEvent.sleep (100 * millisecond)], ?_, ?_, ?_⟩
    · rw [← hb]
      simp only [Board.sleep, f2, List.append_assoc]
    · rw [← hb, levelsAfter_append]
      simp only [Board.sleep, f3, levelsAfter]
    · rw [List.all_append, f4]
      rfl
  | panicked => rw [hp] at h; cases h
  | looping => rw [hp] at h; cases h


theorem initPins_colsLow (b : Board) : ColsLow (main.initPins b).level := by
  refine ⟨?_, ?_, ?_⟩ <;> simp [main.initPins, main.colPins, Board.low]

theorem scanBoard_colsLow (rowPins : List Pin) (f : Frame) (b : Board) :
    ColsLow (scanBoard main.colPins rowPins f main.colPins.length b).level := by
  have hnd : main.colPins.Nodup := by decide
  have h0 := scanBoard_level_of_mem main.colPins rowPins f hnd 3 b 0 (by decide)
  have h1 := scanBoard_level_of_mem main.colPins rowPins f hnd 3 b 1 (by decide)
  have h2 := scanBoard_level_of_mem main.colPins rowPins f hnd 3 b 2 (by decide)
  exact ⟨h0, h1, h2⟩

theorem runLoop_colsLow (env : Env) (fuel : Nat) :
    ∀ st st1 : RunSt, main.runLoop env fuel st = Run.done st1 →
      Shaped main.rowPins.length main.colPins.length st.keyStates → ColsLow st.board.level →
      Shaped main.rowPins.length main.colPins.length st1.keyStates ∧
        ColsLow st1.board.level := by
  induction fuel with
  | zero => intro st st1 h; cases h
  | succ fuel ih =>
    intro st st1 h hs hl
    unfold main.runLoop at h
    split at h
    · unfold main.runBody at h
      simp only at h
      rw [scanKeys_eq main.colPins main.rowPins st.keyStates _ _ _ hs.inRange] at h
      simp only at h
      exact ih _ st1 h (Shaped_updCells _ _ _ _ _ hs) (scanBoard_colsLow _ _ _)
    · injection h with h
      subst h
      exact ⟨hs, hl⟩

theorem colsLow_of_startCell (lv : Pin → Bool) (evs : List PinEvent)
    (h : evs.all (isStartCellEvent 8 11) = true) (hl : ColsLow lv) :
    ColsLow (levelsAfter lv evs) := by
  obtain ⟨a, b, c⟩ := hl
  refine ⟨?_, ?_, ?_⟩
  · rw [levelsAfter_startCell 8 11 evs lv h 5 (by decide)]; exact a
  · rw [levelsAfter_startCell 8 11 evs lv h 6 (by decide)]; exact b
  · rw [levelsAfter_startCell 8 11 evs lv h 7 (by decide)]; exact c

theorem round_colsLow (env : Env) (fuel : Nat) (prev st : MainSt)
    (h : main.round env fuel prev = Run.done st)
    (hs : Shaped main.rowPins.length main.colPins.length prev.keyStates)
    (hl : ColsLow prev.board.level) :
    Shaped main.rowPins.length main.colPins.length st.keyStates ∧ ColsLow st.board.level := by
  unfold main.round at h
  cases hw : waitForSW12Key main.colPins main.rowPins env.startKey fuel prev.board with
  | panicked => rw [hw] at h; cases h
  | looping => rw [hw] at h; cases h
  | done r =>
    obtain ⟨i, b⟩ := r
    rw [hw] at h
    simp only at h
    obtain ⟨evs, _, e2, e3⟩ := waitForSW12Key_startCell main.colPins main.rowPins
      (by decide) (by decide) env.startKey fuel prev.board i b hw
    have hb : ColsLow b.level := by
      rw [e2]
      exact colsLow_of_startCell _ evs e3 hl
    cases hr : main.runLoop env fuel (main.enterRunning env prev b) with
    | panicked => rw [hr] at h; cases h
    | looping => rw [hr] at h; cases h
    | done s1 =>
      rw [hr] at h
      simp only at h
      injection h with h
      subst h
      exact runLoop_colsLow env fuel _ s1 hr (Shaped_resetKeyStates _ _ _ hs) hb

theorem rounds_colsLow (fuel : Nat) (envs : List Env) :
    ∀ s st : MainSt, main.rounds fuel envs s = Run.done st →
      Shaped main.rowPins.length main.colPins.length s.keyStates → ColsLow s.board.level →
      Shaped main.rowPins.length main.colPins.length st.keyStates ∧ ColsLow st.board.level := by
  induction envs with
  | nil =>
    intro s st h hs hl
    injection h with h
    subst h
    exact ⟨hs, hl⟩
  | cons env rest ih =>
    intro s st h hs hl
    unfold main.rounds at h
    cases hr : main.round env fuel s with
    | panicked => rw [hr] at h; cases h
    | looping => rw [hr] at h; cases h
    | done s1 =>
      rw [hr] at h
      simp only at h
      obtain ⟨a, b⟩ := round_colsLow env fuel s s1 hr hs hl
      exact ih s1 st h a b

theorem all_of_append_left {α : Type} (p : α → Bool) (a b : List α)
    (h : (a ++ b).all p = true) : a.all p = true := by
  rw [List.all_append, Bool.and_eq_true] at h
  exact h.1

/-- C17 (idle polls only the start cell).  With `colPins[3]` and `rowPins[2]` in range, the
pin operations of `waitForSW12Key` are drives of `colPins[3]`, reads of `rowPins[2]` and
delays; every pass of its loop drives `colPins[3]` High, waits and reads `rowPins[2]`; the
level of every pin other than `colPins[3]` is the same at each moment of the call as at
entry.  In `main`, after pin initialisation and after any number of rounds, columns 0, 1 and 2
(GPIO5 to GPIO7) are Low when the next `waitForSW12Key` starts, each of its reads is a read
of row 2 (GPIO11), and at each of its reads columns 0, 1 and 2 are Low. -/
theorem C17_idle_polls_start_cell (colPins rowPins : List Pin) (h3 : 3 < colPins.length)
    (h2 : 2 < rowPins.length) :
    (∀ input fuel b i b1, waitForSW12Key colPins rowPins input fuel b = Run.done (i, b1) →
      ∃ evs, b1.log = b.log ++ evs ∧ b1.level = levelsAfter b.level evs ∧
        (∀ e ∈ evs, e = PinEvent.high (colPins.get ⟨3, h3⟩) ∨
          e = PinEvent.low (colPins.get ⟨3, h3⟩) ∨ (∃ d, e = PinEvent.sleep d) ∨
          ∃ v, e = PinEvent.get (rowPins.get ⟨2, h2⟩) v) ∧
        (∀ p, p ≠ colPins.get ⟨3, h3⟩ → b1.level p = b.level p) ∧
        ∀ pre post, evs = pre ++ post → ∀ p, p ≠ colPins.get ⟨3, h3⟩ →
          levelsAfter b.level pre p = b.level p) ∧
    (∀ v st, ∃ flag st1 tail, pollOnce colPins rowPins v st = some (flag, st1) ∧
      st1.board.log = st.board.log ++
        (PinEvent.high (colPins.get ⟨3, h3⟩) :: PinEvent.sleep (1 * millisecond) ::
          PinEvent.get (rowPins.get ⟨2, h2⟩) v :: tail) ∧
      (tail = [] ∨ tail = [PinEvent.low (colPins.get ⟨3, h3⟩),
        PinEvent.sleep (10 * millisecond)]) ∧
      ∀ p, p ≠ colPins.get ⟨3, h3⟩ → st1.board.level p = st.board.level p) ∧
    (main.colPins = [5, 6, 7, 8] ∧ main.rowPins = [9, 10, 11]) ∧
    (∀ b0 envs fuel st, main.rounds fuel envs (main.start b0) = Run.done st →
      ColsLow st.board.level ∧
      ∀ input fuel2 i b1,
        waitForSW12Key main.colPins main.rowPins input fuel2 st.board = Run.done (i, b1) →
        ∃ evs, b1.log = st.board.log ++ evs ∧ ColsLow b1.level ∧
          ∀ pre p v post, evs = pre ++ (PinEvent.get p v :: post) →
            p = 11 ∧ ColsLow (levelsAfter st.board.level pre)) := by
  have hev : ∀ (c3 r2 : Pin) (e : PinEvent), isStartCellEvent c3 r2 e = true →
      e = PinEvent.high c3 ∨ e = PinEvent.low c3 ∨ (∃ d, e = PinEvent.sleep d) ∨
        ∃ v, e = PinEvent.get r2 v := by
    intro c3 r2 e he
    cases e with
    | high p =>
      have : p = c3 := by simpa [isStartCellEvent] using he
      exact Or.inl (by rw [this])
    | low p =>
      have : p = c3 := by simpa [isStartCellEvent] using he
      exact Or.inr (Or.inl (by rw [this]))
    | sleep d => exact Or.inr (Or.inr (Or.inl ⟨d, rfl⟩))
    | get p v =>
      have : p = r2 := by simpa [isStartCellEvent] using he
      exact Or.inr (Or.inr (Or.inr ⟨v, by rw [this]⟩))
  refine ⟨?_, ?_, ⟨rfl, rfl⟩, ?_⟩
  · intro input fuel b i b1 h
    obtain ⟨evs, e1, e2, e3⟩ :=
      waitForSW12Key_startCell colPins rowPins h3 h2 input fuel b i b1 h
    simp only [List.get_eq_getElem]
    refine ⟨evs, e1, e2, ?_, ?_, ?_⟩
    · intro e he
      exact hev _ _ e (List.all_eq_true.1 e3 e he)
    · intro p hp
      rw [e2]
      exact levelsAfter_startCell _ _ evs b.level e3 p hp
    · intro pre post hsplit p hp
      rw [hsplit] at e3
      exact levelsAfter_startCell _ _ pre b.level (all_of_append_left _ pre post e3) p hp
  · intro v st
    obtain ⟨flag, st1, tail, e1, e2, e3, e4⟩ := pollOnce_events colPins rowPins h3 h2 v st
    simp only [List.get_eq_getElem]
    refine ⟨flag, st1, tail, e1, e2, e4, ?_⟩
    intro p hp
    rw [e3]
    apply levelsAfter_startCell colPins[3] rowPins[2] _ _ _ p hp
    rcases e4 with rfl | rfl <;> simp [isStartCellEvent]
  · intro b0 envs fuel st h
    obtain ⟨_, hl⟩ := rounds_colsLow fuel envs (main.start b0) st h Shaped_initKeyStates
      (initPins_colsLow b0)
    refine ⟨hl, ?_⟩
    intro input fuel2 i b1 hw
    obtain ⟨evs, e1, e2, e3⟩ := waitForSW12Key_startCell main.colPins main.rowPins
      (by decide) (by decide) input fuel2 st.board i b1 hw
    refine ⟨evs, e1, ?_, ?_⟩
    · rw [e2]
      exact colsLow_of_startCell _ evs e3 hl
    · intro pre p v post hsplit
      rw [hsplit] at e3
      constructor
      · have hall := List.all_eq_true.1 e3 (PinEvent.get p v) (by simp)
        simpa [isStartCellEvent] using hall
      · exact colsLow_of_startCell _ pre (all_of_append_left _ pre _ e3) hl

/-- Witness for C17 on the pins of `main`: the start key is pressed in pass 1 and released
in pass 2; the pin operations of the call are those of three passes and the final delay. -/
theorem C17_idle_polls_start_cell_witness :
    ∃ b1, waitForSW12Key main.colPins main.rowPins (fun k => decide (k = 1)) 5
        (main.initPins { level := fun _ => true, log := [] }) = Run.done (2, b1) ∧
      ColsLow b1.level ∧ b1.level 8 = true ∧ (readsOf b1.log).length = 3 := by
  have h : ∃ b1, waitForSW12Key main.colPins main.rowPins (fun k => decide (k = 1)) 5
        (main.initPins { level := fun _ => true, log := [] }) = Run.done (2, b1) ∧
      b1.level 8 = true ∧ (readsOf b1.log).length = 3 := ⟨_, rfl, rfl, rfl⟩
  obtain ⟨b1, hw, h8, hr⟩ := h
  obtain ⟨evs, _, hl, _⟩ := ((C17_idle_polls_start_cell main.colPins main.rowPins (by decide)
    (by decide)).2.2.2 { level := fun _ => true, log := [] } [] 0 _ rfl).2
      (fun k => decide (k = 1)) 5 2 b1 hw
  exact ⟨b1, hw, hl, h8, hr⟩

theorem resetKeyStates_idem (ks : KeyStates) :
    main.resetKeyStates (main.resetKeyStates ks) = main.resetKeyStates ks := by
  unfold main.resetKeyStates
  rw [List.map_map]
  apply List.map_congr_left
  intro r _
  simp only [Function.comp, List.map_map]
  rfl

theorem round_done_iff (env : Env) (fuel : Nat) (prev st : MainSt) :
    main.round env fuel prev = Run.done st ↔
      ∃ i b st1,
        waitForSW12Key main.colPins main.rowPins env.startKey fuel prev.board =
          Run.done (i, b) ∧
        main.runLoop env fuel (main.enterRunning env prev b) = Run.done st1 ∧
        st = { keyCount := st1.keyCount, keyStates := st1.keyStates,
               board := st1.board.sleep (3 * second) } := by
  unfold main.round
  constructor
  · intro h
    cases hw : waitForSW12Key main.colPins main.rowPins env.startKey fuel prev.board with
    | panicked => rw [hw] at h; cases h
    | looping => rw [hw] at h; cases h
    | done r =>
      obtain ⟨i, b⟩ := r
      rw [hw] at h
      simp only at h
      cases hr : main.runLoop env fuel (main.enterRunning env prev b) with
      | panicked => rw [hr] at h; cases h
      | looping => rw [hr] at h; cases h
      | done st1 =>
        rw [hr] at h
        simp only at h
        injection h with h
        exact ⟨i, b, st1, rfl, hr, h.symm⟩
  · rintro ⟨i, b, st1, hw, hr, rfl⟩
    rw [hw]
    simp only
    rw [hr]

/-- C6 (fresh counting window, Scenario D).  A round of `main` returns exactly when the
start-key wait returns and the counting loop, started in the state `main.enterRunning`,
returns.  In that state, whatever the previous rounds left behind (any earlier `keyCount`, any
pressed flags): `keyCount` is 0, the key states are those of the previous round with every
`isPressed` cleared and the timestamps kept, `startTime` is the clock value just read and
`endTime` is `startTime` plus exactly 10 seconds; the first test of the loop condition is made
on that state.  `keyCount` is not set again inside the loop: the count the round ends with is
the sum of the counts returned by its `scanKeys` calls, started from 0.  The round does not
depend on the earlier `keyCount` or on the earlier flags. -/
theorem C6_fresh_window (env : Env) (fuel : Nat) (prev : MainSt) :
    (∀ st, main.round env fuel prev = Run.done st ↔
      ∃ i b st1,
        waitForSW12Key main.colPins main.rowPins env.startKey fuel prev.board =
          Run.done (i, b) ∧
        main.runLoop env fuel (main.enterRunning env prev b) = Run.done st1 ∧
        st = { keyCount := st1.keyCount, keyStates := st1.keyStates,
               board := st1.board.sleep (3 * second) }) ∧
    (∀ b, (main.enterRunning env prev b).keyCount = 0 ∧
      (main.enterRunning env prev b).startTime = env.clock 0 ∧
      (main.enterRunning env prev b).endTime = env.clock 0 + 10000000000 ∧
      (main.enterRunning env prev b).ticks = 1 ∧
      (main.enterRunning env prev b).scans = 0 ∧
      (main.enterRunning env prev b).board = b ∧
      (main.enterRunning env prev b).keyStates.length = prev.keyStates.length ∧
      (∀ i j, getCell (main.enterRunning env prev b).keyStates i j =
        (getCell prev.keyStates i j).map
          (fun c => { isPressed := false, lastPress := c.lastPress })) ∧
      ∀ i j, pressedAt (main.enterRunning env prev b).keyStates i j = false) ∧
    (∀ b f, main.runLoop env (f + 1) (main.enterRunning env prev b) =
      if env.clock 1 < env.clock 0 + testDuration then
        match main.runBody env { main.enterRunning env prev b with ticks := 2 } with
        | none => Run.panicked
        | some s => main.runLoop env f s
      else Run.done { main.enterRunning env prev b with ticks := 2 }) ∧
    (∀ st, main.round env fuel prev = Run.done st →
      ∃ i b n counts b2,
        waitForSW12Key main.colPins main.rowPins env.startKey fuel prev.board =
          Run.done (i, b) ∧
        scanPasses main.colPins main.rowPins (loopPasses env 1 0 n)
          (main.resetKeyStates prev.keyStates) b = some (counts, st.keyStates, b2) ∧
        counts.length = n ∧ st.board = b2.sleep (3 * second) ∧
        st.keyCount = counts.sum ∧ 0 ≤ st.keyCount) ∧
    (∀ k, main.round env fuel { prev with keyCount := k } = main.round env fuel prev) ∧
    main.round env fuel { prev with keyStates := main.resetKeyStates prev.keyStates } =
      main.round env fuel prev := by
  refine ⟨fun st => round_done_iff env fuel prev st, ?_, ?_, ?_, ?_, ?_⟩
  · intro b
    refine ⟨rfl, rfl, rfl, rfl, rfl, rfl, ?_, ?_, ?_⟩
    · simp [main.enterRunning, main.resetKeyStates]
    · intro i j
      exact getCell_resetKeyStates prev.keyStates i j
    · intro i j
      exact pressedAt_resetKeyStates prev.keyStates i j
  · intro b f
    show main.runLoop env (f + 1) (main.enterRunning env prev b) = _
    rw [main.runLoop]
    by_cases hc : env.clock 1 < env.clock 0 + testDuration
    · have hb : Time.before (env.clock (main.enterRunning env prev b).ticks)
          (main.enterRunning env prev b).endTime = true := by
        simpa [Time.before, main.enterRunning, Time.add] using hc
      rw [hb, if_pos hc]
      rfl
    · have hb : Time.before (env.clock (main.enterRunning env prev b).ticks)
          (main.enterRunning env prev b).endTime = false := by
        simpa [Time.before, main.enterRunning, Time.add] using hc
      rw [hb, if_neg hc]
      rfl
  · intro st h
    obtain ⟨i, b, st1, hw, hr, rfl⟩ := (round_done_iff env fuel prev st).1 h
    obtain ⟨n, counts, e1, e2, e3, e4⟩ := runLoop_sum env fuel _ st1 hr
    refine ⟨i, b, n, counts, st1.board, hw, e1, e2, rfl, ?_, ?_⟩
    · rw [e3]
      show (0 : Int) + counts.sum = counts.sum
      ring
    · exact e4
  · intro k
    rfl
  · unfold main.round
    simp only [main.enterRunning, resetKeyStates_idem]

/-- Witness for C6: the round before left `keyCount = 41` and the key at (0, 0) latched as
pressed.  The start key is pressed in pass 1 and released in pass 2, the clock advances two
seconds per reading, the key at (0, 0) is down in both passes of the window and a second key
joins it in the second pass.  The round ends with `keyCount = 2`. -/
theorem C6_fresh_window_witness :
    ∃ st : MainSt, main.round
        { startKey := fun k => decide (k = 1)
          clock := fun k => 2000000000 * (k : Int)
          frames := fun k i j => decide (j = 0 ∧ i ≤ k) }
        6
        { keyCount := 41
          keyStates :=
            [[⟨true, 7⟩, ⟨false, 0⟩, ⟨false, 0⟩, ⟨false, 0⟩],
             [⟨false, 0⟩, ⟨false, 0⟩, ⟨false, 0⟩, ⟨false, 0⟩],
             [⟨false, 0⟩, ⟨false, 0⟩, ⟨false, 0⟩, ⟨false, 0⟩]]
          board := { level := fun _ => false, log := [] } } = Run.done st ∧
      st.keyCount = 2 ∧ 0 ≤ st.keyCount := by
  have h : ∃ st : MainSt, main.round
        { startKey := fun k => decide (k = 1)
          clock := fun k => 2000000000 * (k : Int)
          frames := fun k i j => decide (j = 0 ∧ i ≤ k) }
        6
        { keyCount := 41
          keyStates :=
            [[⟨true, 7⟩, ⟨false, 0⟩, ⟨false, 0⟩, ⟨false, 0⟩],
             [⟨false, 0⟩, ⟨false, 0⟩, ⟨false, 0⟩, ⟨false, 0⟩],
             [⟨false, 0⟩, ⟨false, 0⟩, ⟨false, 0⟩, ⟨false, 0⟩]]
          board := { level := fun _ => false, log := [] } } = Run.done st ∧
      st.keyCount = 2 := ⟨_, rfl, rfl⟩
  obtain ⟨st, h1, h2⟩ := h
  obtain ⟨_, _, _, _, _, _, _, _, _, _, h3⟩ := (C6_fresh_window _ 6 _).2.2.2.1 st h1
  exact ⟨st, h1, h2, h3⟩

theorem roundHalfEven_err (x : ℚ) : |(roundHalfEven x : ℚ) - x| ≤ 1 / 2 := by
  have h1 := Int.floor_le x
  have h2 := Int.lt_floor_add_one x
  unfold roundHalfEven
  split
  · rw [abs_le]; constructor <;> linarith
  · split
    · push_cast; rw [abs_le]; constructor <;> linarith
    · rename_i h3 h4
      have h5 : x - ⌊x⌋ = 1 / 2 := le_antisymm (not_lt.1 h4) (not_lt.1 h3)
      split
      · rw [abs_le]; constructor <;> linarith
      · push_cast; rw [abs_le]; constructor <;> linarith

theorem roundHalfEven_near (x : ℚ) (k : Int) (h : |x - k| < 1 / 2) : roundHalfEven x = k := by
  have he := roundHalfEven_err x
  rw [abs_lt] at h
  rw [abs_le] at he
  have h1 : ((roundHalfEven x - k : Int) : ℚ) < 1 := by push_cast; linarith
  have h2 : (-1 : ℚ) < ((roundHalfEven x - k : Int) : ℚ) := by push_cast; linarith
  have h3 : roundHalfEven x - k < 1 := by exact_mod_cast h1
  have h4 : -1 < roundHalfEven x - k := by exact_mod_cast h2
  omega

theorem roundHalfEven_intCast (n : Int) : roundHalfEven (n : ℚ) = n :=
  roundHalfEven_near _ n (by simp)


theorem binary64_zero : binary64 0 = 0 := by
  simp [binary64]

theorem binary64_of_pos (q : ℚ) (hq : 0 < q) (hlog : -1022 ≤ Int.log 2 q) :
    binary64 q =
      (roundHalfEven (q / 2 ^ (Int.log 2 q - 52)) : ℚ) * 2 ^ (Int.log 2 q - 52) := by
  unfold binary64
  rw [if_neg hq.ne', abs_of_pos hq, if_neg (not_lt.2 hq.le), max_eq_left (by omega)]
  ring

theorem binary64_err (q : ℚ) (hq : 0 < q) (hlog : -1022 ≤ Int.log 2 q) :
    |binary64 q - q| ≤ 2 ^ (Int.log 2 q - 52) / 2 := by
  rw [binary64_of_pos q hq hlog]
  have hP : (0 : ℚ) < 2 ^ (Int.log 2 q - 52) := by positivity
  have hr := roundHalfEven_err (q / 2 ^ (Int.log 2 q - 52))
  have e : (roundHalfEven (q / 2 ^ (Int.log 2 q - 52)) : ℚ) * 2 ^ (Int.log 2 q - 52) - q =
      ((roundHalfEven (q / 2 ^ (Int.log 2 q - 52)) : ℚ) - q / 2 ^ (Int.log 2 q - 52)) *
        2 ^ (Int.log 2 q - 52) := by
    field_simp
  rw [e, abs_mul, abs_of_pos hP]
  calc |(roundHalfEven (q / 2 ^ (Int.log 2 q - 52)) : ℚ) - q / 2 ^ (Int.log 2 q - 52)| *
        2 ^ (Int.log 2 q - 52)
      ≤ 1 / 2 * 2 ^ (Int.log 2 q - 52) := mul_le_mul_of_nonneg_right hr hP.le
    _ = 2 ^ (Int.log 2 q - 52) / 2 := by ring

theorem binary64_natCast (n : Nat) (h : n < 2 ^ 53) : binary64 (n : ℚ) = n := by
  rcases Nat.eq_zero_or_pos n with h0 | hpos
  · subst h0
    simp [binary64]
  · have hq : (0 : ℚ) < (n : ℚ) := by exact_mod_cast hpos
    have hL : Int.log 2 (n : ℚ) = (Nat.log 2 n : Int) := Int.log_natCast 2 n
    have hlt : Nat.log 2 n < 53 := Nat.log_lt_of_lt_pow (Nat.pos_iff_ne_zero.1 hpos) h
    rw [binary64_of_pos _ hq (by rw [hL]; omega), hL]
    obtain ⟨j, hj⟩ : ∃ j : Nat, (Nat.log 2 n : Int) - 52 = -(j : Int) :=
      ⟨52 - Nat.log 2 n, by omega⟩
    rw [hj, zpow_neg, zpow_natCast]
    have e : (n : ℚ) / (2 ^ j)⁻¹ = ((n * 2 ^ j : Nat) : Int) := by
      push_cast
      field_simp
    rw [e, roundHalfEven_intCast]
    push_cast
    field_simp

theorem binary64_ten : binary64 10 = 10 := by
  have h := binary64_natCast 10 (by norm_num)
  exact_mod_cast h

theorem speed_natCast (n : Nat) (h : n < 2 ^ 53) :
    main.speed (n : Int) = binary64 ((n : ℚ) / 10) := by
  unfold main.speed
  rw [binary64_ten]
  have e : (((n : Int) : ℚ)) = (n : ℚ) := by push_cast; rfl
  rw [e, binary64_natCast n h]

theorem log_tenth (n : Nat) (hpos : 0 < n) (h : n < 2 ^ 52) :
    -4 ≤ Int.log 2 ((n : ℚ) / 10) ∧ Int.log 2 ((n : ℚ) / 10) ≤ 48 := by
  have hq : (0 : ℚ) < (n : ℚ) / 10 := by
    have : (0 : ℚ) < n := by exact_mod_cast hpos
    positivity
  constructor
  · rw [← Int.zpow_le_iff_le_log (by norm_num) hq]
    have h1 : (1 : ℚ) ≤ n := by exact_mod_cast hpos
    norm_num
    linarith
  · have : Int.log 2 ((n : ℚ) / 10) < 49 := by
      rw [← Int.lt_zpow_iff_log_lt (by norm_num) hq]
      have h3 : n < 4503599627370496 := by
        have := h
        norm_num at this
        exact this
      have h2 : (n : ℚ) < 4503599627370496 := by exact_mod_cast h3
      norm_num
      linarith
    omega

theorem speed_times_ten (n : Nat) (h : n < 2 ^ 52) :
    |main.speed (n : Int) * 10 - n| < 1 / 2 ∧ 0 ≤ main.speed (n : Int) := by
  rw [speed_natCast n (lt_trans h (by norm_num))]
  rcases Nat.eq_zero_or_pos n with h0 | hpos
  · subst h0
    simp [binary64_zero]
  · have hq : (0 : ℚ) < (n : ℚ) / 10 := by
      have : (0 : ℚ) < n := by exact_mod_cast hpos
      positivity
    obtain ⟨l1, l2⟩ := log_tenth n hpos h
    have herr := binary64_err _ hq (by omega)
    have hpow : (2 : ℚ) ^ (Int.log 2 ((n : ℚ) / 10) - 52) ≤ 2 ^ (-4 : Int) :=
      zpow_le_zpow_right₀ (by norm_num) (by omega)
    have h16 : (2 : ℚ) ^ (-4 : Int) = 1 / 16 := by norm_num
    rw [h16] at hpow
    rw [abs_le] at herr
    have h1 : (1 : ℚ) ≤ n := by exact_mod_cast hpos
    constructor
    · rw [abs_lt]
      constructor <;> linarith
    · linarith


theorem log_seven_tenths : Int.log 2 ((7 : ℚ) / 10) = -1 := by
  have h1 : Int.log 2 ((7 : ℚ) / 10) < 0 :=
    (Int.lt_zpow_iff_log_lt (by norm_num) (by norm_num)).1 (by norm_num)
  have h2 : -1 ≤ Int.log 2 ((7 : ℚ) / 10) :=
    (Int.zpow_le_iff_le_log (by norm_num) (by norm_num)).1 (by norm_num)
  omega

theorem speed_seven : main.speed 7 = 3152519739159347 / 4503599627370496 := by
  have h := speed_natCast 7 (by norm_num)
  have e : ((7 : Nat) : Int) = 7 := rfl
  rw [e] at h
  rw [h]
  have hc : ((7 : Nat) : ℚ) = 7 := by norm_num
  rw [hc, binary64_of_pos _ (by norm_num) (by rw [log_seven_tenths]; norm_num),
    log_seven_tenths]
  have hr : roundHalfEven ((7 : ℚ) / 10 / 2 ^ ((-1 : Int) - 52)) = 6305039478318694 := by
    apply roundHalfEven_near
    rw [abs_lt]
    constructor <;> norm_num
  rw [hr]
  norm_num

/-- C8 amended (result speed).  For every final `keyCount` from 0 up to `2 ^ 52`, a range
that holds every value of a 32-bit `int`: the speed computed on leaving the counting loop is
the binary64 value nearest to `keyCount / 10`, where 10 is the test duration in seconds; it is
within a relative error of `2 ^ -53` of that quotient without being equal to it in general;
and the string displayed is the decimal digits of `keyCount div 10`, a point, and the digit
`keyCount mod 10`. -/
theorem C8_result_speed (n : Nat) (h : n < 2 ^ 52) :
    testDuration = 10 * second ∧
    main.speed (n : Int) = binary64 ((n : ℚ) / 10) ∧
    |main.speed (n : Int) - (n : ℚ) / 10| * 2 ^ 53 ≤ (n : ℚ) / 10 ∧
    main.speedStr (n : Int) = Nat.repr (n / 10) ++ "." ++ Nat.repr (n % 10) := by
  have hs := speed_natCast n (lt_trans h (by norm_num))
  refine ⟨rfl, hs, ?_, ?_⟩
  · rw [hs]
    rcases Nat.eq_zero_or_pos n with h0 | hpos
    · subst h0
      simp [binary64_zero]
    · have hq : (0 : ℚ) < (n : ℚ) / 10 := by
        have : (0 : ℚ) < n := by exact_mod_cast hpos
        positivity
      obtain ⟨l1, _⟩ := log_tenth n hpos h
      have herr := binary64_err _ hq (by omega)
      have hle := Int.zpow_log_le_self (b := 2) (by norm_num) hq
      have hsplit : (2 : ℚ) ^ (Int.log 2 ((n : ℚ) / 10) - 52) =
          2 ^ Int.log 2 ((n : ℚ) / 10) / 2 ^ 52 := by
        rw [zpow_sub₀ (by norm_num)]
        norm_num
      rw [hsplit] at herr
      have hcast : ((2 : Nat) : ℚ) = 2 := by norm_num
      rw [hcast] at hle
      calc |binary64 ((n : ℚ) / 10) - (n : ℚ) / 10| * 2 ^ 53
          ≤ 2 ^ Int.log 2 ((n : ℚ) / 10) / 2 ^ 52 / 2 * 2 ^ 53 :=
            mul_le_mul_of_nonneg_right herr (by positivity)
        _ = 2 ^ Int.log 2 ((n : ℚ) / 10) := by ring
        _ ≤ (n : ℚ) / 10 := hle
  · obtain ⟨h1, h2⟩ := speed_times_ten n h
    unfold main.speedStr formatFloat1
    rw [if_neg (not_lt.2 h2), abs_of_nonneg h2]
    have hr : roundHalfEven (main.speed (n : Int) * 10) = (n : Int) :=
      roundHalfEven_near _ (n : Int) (by push_cast; exact h1)
    rw [hr]
    simp only [Int.toNat_ofNat]

/-- Witness for C8 amended: seven key presses are displayed as "0.7". -/
theorem C8_result_speed_witness : main.speedStr 7 = "0.7" := by
  have h := (C8_result_speed 7 (by norm_num)).2.2.2
  have e : ((7 : Nat) : Int) = 7 := rfl
  rw [e] at h
  rw [h]
  decide

theorem roundHalfEven_tie (m : Int) (hm : m % 2 = 0) :
    roundHalfEven ((m : ℚ) + 1 / 2) = m := by
  have hf : ⌊(m : ℚ) + 1 / 2⌋ = m := by
    rw [Int.floor_eq_iff]
    constructor <;> norm_num
  unfold roundHalfEven
  rw [hf]
  have e : (m : ℚ) + 1 / 2 - m = 1 / 2 := by ring
  rw [e]
  simp [hm]

theorem speed_beyond_exact_range :
    main.speed 9007199254740993 = 3602879701896397 / 4 ∧
    main.speedStr 9007199254740993 = "900719925474099.2" ∧
    Nat.repr (9007199254740993 / 10) ++ "." ++ Nat.repr (9007199254740993 % 10) =
      "900719925474099.3" := by
  have hl1 : Int.log 2 (9007199254740993 : ℚ) = 53 := by
    have h1 : Int.log 2 (9007199254740993 : ℚ) < 54 :=
      (Int.lt_zpow_iff_log_lt (by norm_num) (by norm_num)).1 (by norm_num)
    have h2 : 53 ≤ Int.log 2 (9007199254740993 : ℚ) :=
      (Int.zpow_le_iff_le_log (by norm_num) (by norm_num)).1 (by norm_num)
    omega
  have hb1 : binary64 (9007199254740993 : ℚ) = 9007199254740992 := by
    rw [binary64_of_pos _ (by norm_num) (by rw [hl1]; norm_num), hl1]
    have hr : roundHalfEven ((9007199254740993 : ℚ) / 2 ^ ((53 : Int) - 52)) =
        4503599627370496 := by
      have e : (9007199254740993 : ℚ) / 2 ^ ((53 : Int) - 52) =
          ((4503599627370496 : Int) : ℚ) + 1 / 2 := by norm_num
      rw [e]
      exact roundHalfEven_tie 4503599627370496 (by decide)
    rw [hr]
    norm_num
  have hl2 : Int.log 2 ((9007199254740992 : ℚ) / 10) = 49 := by
    have h1 : Int.log 2 ((9007199254740992 : ℚ) / 10) < 50 :=
      (Int.lt_zpow_iff_log_lt (by norm_num) (by norm_num)).1 (by norm_num)
    have h2 : 49 ≤ Int.log 2 ((9007199254740992 : ℚ) / 10) :=
      (Int.zpow_le_iff_le_log (by norm_num) (by norm_num)).1 (by norm_num)
    omega
  have hs : main.speed 9007199254740993 = 3602879701896397 / 4 := by
    unfold main.speed
    have ec : ((9007199254740993 : Int) : ℚ) = 9007199254740993 := by norm_num
    rw [ec, hb1, binary64_ten,
      binary64_of_pos _ (by norm_num) (by rw [hl2]; norm_num), hl2]
    have hr : roundHalfEven ((9007199254740992 : ℚ) / 10 / 2 ^ ((49 : Int) - 52)) =
        7205759403792794 := by
      apply roundHalfEven_near
      rw [abs_lt]
      constructor <;> norm_num
    rw [hr]
    norm_num
  refine ⟨hs, ?_, by decide⟩
  unfold main.speedStr formatFloat1
  rw [hs]
  have hpos : ¬ ((3602879701896397 : ℚ) / 4 < 0) := by norm_num
  rw [if_neg hpos]
  have hr : roundHalfEven (|(3602879701896397 : ℚ) / 4| * 10) = 9007199254740992 := by
    have e : |(3602879701896397 : ℚ) / 4| * 10 = ((9007199254740992 : Int) : ℚ) + 1 / 2 := by
      rw [abs_of_pos (by norm_num)]
      norm_num
    rw [e]
    exact roundHalfEven_tie 9007199254740992 (by decide)
  rw [hr]
  decide

/-- Counterexample to C8 as stated: for `keyCount = 7` the computed speed is the binary64
value 3152519739159347 / 2 ^ 52, just below seven tenths, and not the rational 7 / 10.  And
"for every `keyCount`" does not hold of the display either: for `2 ^ 53 + 1`, a count that
only a 64-bit `int` can hold, the conversion to binary64 already rounds and the string
displayed ends in 2 where `keyCount mod 10` is 3. -/
theorem C8_speed_is_not_exact :
    main.speed 7 = 3152519739159347 / 4503599627370496 ∧ main.speed 7 ≠ 7 / 10 ∧
    main.speedStr 9007199254740993 = "900719925474099.2" ∧
    main.speedStr 9007199254740993 ≠
      Nat.repr (9007199254740993 / 10) ++ "." ++ Nat.repr (9007199254740993 % 10) := by
  refine ⟨speed_seven, ?_, speed_beyond_exact_range.2.1, ?_⟩
  · rw [speed_seven]
    norm_num
  · rw [speed_beyond_exact_range.2.1, speed_beyond_exact_range.2.2]
    decide

end Redkey
